import Mathlib

/-
Verification of the block-extraction and cross-document reconciliation engine
of MasterDatasheetAutomation (`populate_syscad_inputs_rev2.py`, plus the
`extract_syscad_params` helper of `app.py`) against its natural-language
specification.  The Python code is shallowly embedded: worksheets become
association-list grids with openpyxl's explicit `max_row`/`max_column`
dimensions, Python cell values become an inductive type over `Int`/`ℚ`/`String`
with Python truthiness and `==`, dicts become association lists with
last-insert-wins gets, and the two `.strip()` call sites (which raise
`AttributeError` on non-string values) make the pass return `Except`.
-/

set_option autoImplicit false

namespace SyscadPopulate

/-- A spreadsheet cell value as the engine distinguishes them: Python `int`,
`float` and `str`.  Floats are modelled as exact rationals; the source only
tests `isinstance(val, float)` and applies `round(val, 2)`, so no
binary-representation reasoning is involved. -/
inductive CellValue where
  | vInt (n : Int)
  | vFloat (q : ℚ)
  | vStr (s : String)
  deriving DecidableEq, Repr

/-- Python truthiness of a cell value (`if c.value:`): `0`, `0.0` and the empty
string are falsy. -/
def truthyV : CellValue → Bool
  | .vInt n => decide (n ≠ 0)
  | .vFloat q => decide (q.num ≠ 0)
  | .vStr s => decide (s ≠ "")

/-- Python truthiness of an optional cell value; an empty cell reads as `None`,
which is falsy. -/
def truthy : Option CellValue → Bool
  | none => false
  | some v => truthyV v

/-- Python `==` between cell values: `int` and `float` compare numerically
across types, strings compare by content, and numbers never equal strings. -/
def pyEqV : CellValue → CellValue → Bool
  | .vInt a, .vInt b => decide (a = b)
  | .vInt a, .vFloat b => decide (mkRat a 1 = b)
  | .vFloat a, .vInt b => decide (a = mkRat b 1)
  | .vFloat a, .vFloat b => decide (a = b)
  | .vStr a, .vStr b => decide (a = b)
  | _, _ => false

/-- Python `==` between optional cell values: `None` equals only `None`. -/
def pyEqO : Option CellValue → Option CellValue → Bool
  | none, none => true
  | some a, some b => pyEqV a b
  | _, _ => false

/-- Python `str()` of a cell value.  It is only ever used for the substring
tests `"SysCAD Inputs" in str(label)` and `"Engineering Inputs" in str(label)`;
number rendering differs cosmetically from CPython but, consisting of digits,
signs, dots and slashes only, can never contain either label. -/
def pyStr : CellValue → String
  | .vInt n => toString n
  | .vFloat q => toString q
  | .vStr s => s

/-- The whitespace characters Python `str.strip()` removes. -/
def isPyWhitespace (c : Char) : Bool :=
  c = ' ' || c = '\t' || c = '\n' || c = '\r' || c = '\x0b' || c = '\x0c'

def dropLeading : List Char → List Char
  | [] => []
  | c :: cs => if isPyWhitespace c then dropLeading cs else c :: cs

/-- Python `str.strip()` on a string: remove leading and trailing whitespace. -/
def pyStripStr (s : String) : String :=
  ⟨(dropLeading ((dropLeading s.data).reverse)).reverse⟩

/-- Python `.strip()`: trims surrounding whitespace on strings and raises
`AttributeError` on any other value, as at `row[2].value.strip()` and
`pname.strip()` in the source. -/
def pyStripV : CellValue → Except String String
  | .vStr s => .ok (pyStripStr s)
  | _ => .error "AttributeError"

/-- Whether `pat` occurs at the start of `l`. -/
def chStart : List Char → List Char → Bool
  | [], _ => true
  | _ :: _, [] => false
  | p :: ps, x :: xs => p == x && chStart ps xs

/-- Whether `pat` occurs somewhere inside `l`. -/
def chSub (pat : List Char) : List Char → Bool
  | [] => chStart pat []
  | x :: xs => chStart pat (x :: xs) || chSub pat xs

/-- Python substring test `pat in s`. -/
def strHasSub (s pat : String) : Bool := chSub pat.data s.data

/-- Rational multiplication, written out on numerators and denominators so
that it evaluates inside the kernel (`qMul_eq` shows it is `ℚ`
multiplication). -/
def qMul (a b : ℚ) : ℚ := mkRat (a.num * b.num) (a.den * b.den)

/-- Rational subtraction, written out on numerators and denominators
(`qSub_eq` shows it is `ℚ` subtraction). -/
def qSub (a b : ℚ) : ℚ :=
  mkRat (a.num * (b.den : Int) - b.num * (a.den : Int)) (a.den * b.den)

/-- The strict-order test on rationals (`qLtb_iff` shows it decides `<`). -/
def qLtb (a b : ℚ) : Bool := decide (a.num * (b.den : Int) < b.num * (a.den : Int))

/-- The floor of a rational, computed by flooring division of numerator by
denominator (the denominator is positive, so this is the usual `⌊q⌋`). -/
def ratFloor (q : ℚ) : Int := q.num.fdiv q.den

/-- Round a rational to the nearest integer, ties to even (CPython `round`). -/
def roundHalfEven (q : ℚ) : Int :=
  let f : Int := ratFloor q
  let r : ℚ := qSub q (mkRat f 1)
  if qLtb r (mkRat 1 2) then f
  else if qLtb (mkRat 1 2) r then f + 1
  else if f % 2 = 0 then f else f + 1

/-- `round(val, 2)` on a float value: round `100 q` to the nearest integer
(ties to even) and divide back by 100. -/
def roundQ2 (q : ℚ) : ℚ := mkRat (roundHalfEven (qMul q (mkRat 100 1))) 100

theorem qMul_eq (a b : ℚ) : qMul a b = a * b := by
  unfold qMul
  rw [Rat.mul_def, Rat.normalize_eq_mkRat]

theorem qSub_eq (a b : ℚ) : qSub a b = a - b := by
  unfold qSub
  rw [Rat.sub_def, Rat.normalize_eq_mkRat]

theorem qLtb_iff (a b : ℚ) : qLtb a b = true ↔ a < b := by
  unfold qLtb
  rw [decide_eq_true_iff]
  have ha : (0 : ℚ) < (a.den : ℚ) := by exact_mod_cast a.den_pos
  have hb : (0 : ℚ) < (b.den : ℚ) := by exact_mod_cast b.den_pos
  constructor
  · intro h
    have h2 : (a.num : ℚ) / (a.den : ℚ) < (b.num : ℚ) / (b.den : ℚ) := by
      rw [div_lt_div_iff₀ ha hb]
      exact_mod_cast h
    rw [Rat.num_div_den, Rat.num_div_den] at h2
    exact h2
  · intro h
    have h2 : (a.num : ℚ) / (a.den : ℚ) < (b.num : ℚ) / (b.den : ℚ) := by
      rw [Rat.num_div_den, Rat.num_div_den]
      exact h
    rw [div_lt_div_iff₀ ha hb] at h2
    exact_mod_cast h2

/-- The value written by line 78 of the source:
`round(val, 2) if isinstance(val, float) else val` — floats are rounded to two
decimal places, every other type passes through unchanged. -/
def pyRound2 : CellValue → CellValue
  | .vFloat q => .vFloat (roundQ2 q)
  | v => v

/-- Whether a value is a Python float (`isinstance(val, float)`). -/
def isFloatV : CellValue → Bool
  | .vFloat _ => true
  | _ => false

/-- One cell: its value plus the two pieces of formatting the engine writes
(`Font(bold=True)` and the thin `Border`). -/
structure Cell where
  val : Option CellValue
  bold : Bool
  bordered : Bool
  deriving DecidableEq, Repr

def emptyCell : Cell := ⟨none, false, false⟩

/-- A worksheet: cells keyed by (row, column), 1-indexed, together with
openpyxl's `max_row`/`max_column` dimensions, which `ws.cell(...)` extends.
A later list entry for the same address shadows earlier ones. -/
structure Sheet where
  cells : List ((Nat × Nat) × Cell)
  maxRow : Nat
  maxCol : Nat
  deriving DecidableEq, Repr

def getCell (s : Sheet) (r c : Nat) : Cell :=
  match s.cells.find? (fun e => e.1 == (r, c)) with
  | some e => e.2
  | none => emptyCell

def getVal (s : Sheet) (r c : Nat) : Option CellValue := (getCell s r c).val

/-- Write through `ws.cell(row=r, column=c, ...)` plus style assignments:
replace the cell by `f` of its current state and extend the dimensions. -/
def updCell (s : Sheet) (r c : Nat) (f : Cell → Cell) : Sheet :=
  ⟨((r, c), f (getCell s r c)) :: s.cells, max s.maxRow r, max s.maxCol c⟩

/-- Lines 39-41: write a value and set bold font and thin border. -/
def writeHeaderCell (s : Sheet) (r c : Nat) (v : CellValue) : Sheet :=
  updCell s r c (fun _ => ⟨some v, true, true⟩)

/-- Lines 78-79 and 85-86: write a value and apply the thin border, leaving the
font as it is. -/
def writeValCell (s : Sheet) (r c : Nat) (v : CellValue) : Sheet :=
  updCell s r c (fun cl => ⟨some v, cl.bold, true⟩)

/-- The comprehension `[c.value for c in ws[row][3:] if c.value]` (lines 37 and
63): the values of the cells of `row` in columns 4..max_column, keeping the
truthy ones in order.  Empty or falsy header cells are skipped, not a stopping
point. -/
def collectTags (s : Sheet) (row : Nat) : List CellValue :=
  (List.range' 4 (s.maxCol - 3)).filterMap (fun c =>
    match getVal s row c with
    | some v => if truthyV v then some v else none
    | none => none)

/-- Lines 38-41: write the streamtable unit tags into master row 3, the tag at
list position `i` going to column `4 + i`. -/
def headerWrite (m : Sheet) (i : Nat) : List CellValue → Sheet
  | [] => m
  | t :: ts => headerWrite (writeHeaderCell m 3 (4 + i) t) (i + 1) ts

def headerOverwrite (m : Sheet) (tags : List CellValue) : Sheet := headerWrite m 0 tags

/-- A Python dict backed by an association list: `dictInsert` prepends, so
re-inserting a key overwrites it for `dictGet`. -/
abbrev Dict (α : Type) : Type := List (String × α)

def dictGet {α : Type} (d : Dict α) (k : String) : Option α :=
  match List.find? (fun e => e.1 == k) d with
  | some e => some e.2
  | none => none

def dictInsert {α : Type} (k : String) (v : α) (d : Dict α) : Dict α := (k, v) :: d

/-- One row of the dict comprehension of lines 44-48: a truthy column-3 cell is
stripped (raising `AttributeError` on a non-string) and recorded tag → row,
overwriting any earlier row with the same tag (last occurrence wins). -/
def streamTagsGo (s : Sheet) : List Nat → Dict Nat → Except String (Dict Nat)
  | [], d => .ok d
  | r :: rs, d =>
    match getVal s r 3 with
    | some v =>
      if truthyV v then
        match pyStripV v with
        | .error e => .error e
        | .ok k => streamTagsGo s rs (dictInsert k r d)
      else streamTagsGo s rs d
    | none => streamTagsGo s rs d

/-- Lines 44-48: the tag → row lookup over `iter_rows(min_row=3, max_col=3)`,
that is rows 3..max_row. -/
def buildStreamTagToRow (s : Sheet) : Except String (Dict Nat) :=
  streamTagsGo s (List.range' 3 (s.maxRow - 2)) []

/-- `label and "SysCAD Inputs" in str(label)` (line 54). -/
def labelOpens (label : Option CellValue) : Bool :=
  match label with
  | some v => truthyV v && strHasSub (pyStr v) "SysCAD Inputs"
  | none => false

/-- `label and "Engineering Inputs" in str(label)` (line 57). -/
def labelCloses (label : Option CellValue) : Bool :=
  match label with
  | some v => truthyV v && strHasSub (pyStr v) "Engineering Inputs"
  | none => false

/-- Lines 51-61, carrying the `in_syscad` flag over the remaining rows: a row
whose column-1 text contains "SysCAD Inputs" raises the flag and is itself
still processed; with the flag up, a row whose column-1 text contains
"Engineering Inputs" stops the scan, and otherwise a truthy column-2 value is
stripped and recorded name → row, overwriting any earlier row with the same
name. -/
def paramRowsGo (s : Sheet) : List Nat → Bool → Dict Nat → Except String (Dict Nat)
  | [], _, d => .ok d
  | r :: rs, inB, d =>
    if inB || labelOpens (getVal s r 1) then
      if labelCloses (getVal s r 1) then .ok d
      else
        match getVal s r 2 with
        | some pv =>
          if truthyV pv then
            match pyStripV pv with
            | .error e => .error e
            | .ok k => paramRowsGo s rs (inB || labelOpens (getVal s r 1)) (dictInsert k r d)
          else paramRowsGo s rs (inB || labelOpens (getVal s r 1)) d
        | none => paramRowsGo s rs (inB || labelOpens (getVal s r 1)) d
    else paramRowsGo s rs (inB || labelOpens (getVal s r 1)) d

/-- Lines 51-61: the parameter → row lookup inside the "SysCAD Inputs" block,
scanning rows 1..max_row. -/
def buildParamRows (s : Sheet) : Except String (Dict Nat) :=
  paramRowsGo s (List.range' 1 s.maxRow) false []

/-- The sequence of (name, row) insertions `paramRowsGo` performs, in order.
This is a specification-side companion used to state which occurrence of a
duplicated parameter name survives in the resulting dict. -/
def paramEntriesGo (s : Sheet) : List Nat → Bool → Except String (List (String × Nat))
  | [], _ => .ok []
  | r :: rs, inB =>
    if inB || labelOpens (getVal s r 1) then
      if labelCloses (getVal s r 1) then .ok []
      else
        match getVal s r 2 with
        | some pv =>
          if truthyV pv then
            match pyStripV pv with
            | .error e => .error e
            | .ok k =>
              match paramEntriesGo s rs (inB || labelOpens (getVal s r 1)) with
              | .error e => .error e
              | .ok rest => .ok ((k, r) :: rest)
          else paramEntriesGo s rs (inB || labelOpens (getVal s r 1))
        | none => paramEntriesGo s rs (inB || labelOpens (getVal s r 1))
    else paramEntriesGo s rs (inB || labelOpens (getVal s r 1))

def paramEntries (s : Sheet) : Except String (List (String × Nat)) :=
  paramEntriesGo s (List.range' 1 s.maxRow) false

/-- Folding the insertion sequence into a dict, as `paramRowsGo` does. -/
def foldIns (l : List (String × Nat)) : Dict Nat :=
  l.foldl (fun d e => dictInsert e.1 e.2 d) []

/-- Python `unit_tag in stream_unit_tags` (line 67). -/
def pyMem (v : CellValue) (l : List CellValue) : Bool := l.any (fun x => pyEqV x v)

/-- Python `stream_unit_tags.index(unit_tag)` (line 69): the first index whose
element compares `==` to the sought value. -/
def pyIdx (l : List CellValue) (v : CellValue) : Nat := l.findIdx (fun x => pyEqV x v)

/-- Lines 81-86 for one pair whose lookups both hit: read the declared unit
from the streamtable tag row's column 2 and the master unit from column 3 of
the parameter row; when the former is truthy and the two differ under Python
`!=`, overwrite the master unit cell and apply the border. -/
def pairUnit (stream : Sheet) (sRow mRow : Nat) (m2 : Sheet) : Sheet :=
  if truthy (getVal stream sRow 2) &&
      !(pyEqO (getVal m2 mRow 3) (getVal stream sRow 2)) then
    match getVal stream sRow 2 with
    | some u => writeValCell m2 mRow 3 u
    | none => m2
  else m2

/-- Lines 75-79 for one pair whose lookups both hit: an empty source cell
leaves the destination untouched; otherwise the value (floats rounded to two
places) is written with a border. -/
def pairValue (stream : Sheet) (sRow scol mRow mcol : Nat) (m : Sheet) : Sheet :=
  match getVal stream sRow scol with
  | some v => writeValCell m mRow mcol (pyRound2 v)
  | none => m

/-- Lines 70-86, the body of the inner mapping loop for one
(master_param, stream_tag) pair at one master column (`mcol = col_off + 4`,
`scol` the streamtable column of the shared unit tag): skip silently unless
both lookups hit, otherwise copy the value and then reconcile the unit. -/
def pairStep (stream : Sheet) (prows trows : Dict Nat) (scol mcol : Nat)
    (m : Sheet) (pr : String × String) : Sheet :=
  match dictGet prows pr.1, dictGet trows pr.2 with
  | some mRow, some sRow =>
    pairUnit stream sRow mRow (pairValue stream sRow scol mRow mcol m)
  | _, _ => m

/-- Lines 66-86: the loop body for one (col_off, unit_tag) entry of the master
tag list; a tag absent from the streamtable tag list is skipped entirely,
otherwise every mapping pair is processed at this column. -/
def colStep (stream : Sheet) (prows trows : Dict Nat) (stags : List CellValue)
    (pairs : List (String × String)) (m : Sheet) (col : Nat × CellValue) : Sheet :=
  if pyMem col.2 stags then
    pairs.foldl (pairStep stream prows trows (pyIdx stags col.2 + 4) (col.1 + 4)) m
  else m

/-- Lines 36-86: one equipment sheet, given a non-empty per-equipment mapping.
The streamtable unit tags are read first, the master header row 3 is
overwritten with them, the two lookups are built (either `.strip()` call may
raise), the master tag list is read from the post-overwrite sheet, and the
nested column × mapping-pair loop mutates the master sheet. -/
def processSheet (master stream : Sheet) (pairs : List (String × String)) :
    Except String Sheet :=
  match buildStreamTagToRow stream with
  | .error e => .error e
  | .ok trows =>
    match buildParamRows (headerOverwrite master (collectTags stream 1)) with
    | .error e => .error e
    | .ok prows =>
      .ok (((collectTags (headerOverwrite master (collectTags stream 1)) 3).enum).foldl
        (colStep stream prows trows (collectTags stream 1) pairs)
        (headerOverwrite master (collectTags stream 1)))

/-- Line 25: `list(master_sheets - stream_sheets)`.  CPython enumerates the
difference set in hash order; the embedding fixes the master's sheet order as
one admissible enumeration (contents and multiplicity are order-independent,
the order itself is not guaranteed by the source). -/
def missingSheets (master stream : List (String × Sheet)) : List String :=
  (master.map Prod.fst).filter (fun n => (dictGet stream n).isNone)

/-- The treatment of one master sheet by the orchestration loop (lines 27-34):
untouched when the streamtable lacks the sheet (`eq_type` not in
`common_sheets`) or the mapping entry `mapping_dict.get(eq_type, {})` is
empty, otherwise processed by the per-sheet engine. -/
def sheetResult (stream : List (String × Sheet))
    (mapping : Dict (List (String × String))) (name : String) (ms : Sheet) :
    Except String Sheet :=
  match dictGet stream name with
  | none => .ok ms
  | some ss =>
    if ((dictGet mapping name).getD []).isEmpty then .ok ms
    else processSheet ms ss ((dictGet mapping name).getD [])

/-- Lines 27-34 driving the per-sheet engine over the master workbook's sheets.
Sheets are processed independently, so the master's sheet order stands in for
the arbitrary `set` iteration order of `common_sheets`. -/
def populateSheets (stream : List (String × Sheet))
    (mapping : Dict (List (String × String))) :
    List (String × Sheet) → Except String (List (String × Sheet))
  | [] => .ok []
  | (name, ms) :: rest =>
    match sheetResult stream mapping name ms with
    | .error e => .error e
    | .ok ms' =>
      match populateSheets stream mapping rest with
      | .error e => .error e
      | .ok rest' => .ok ((name, ms') :: rest')

/-- `populate_syscad_inputs` (lines 12-91): the mutated master workbook plus
the missing-sheets list; an uncaught exception aborts with no return value. -/
def populate_syscad_inputs (master stream : List (String × Sheet))
    (mapping : Dict (List (String × String))) :
    Except String (List (String × Sheet) × List String) :=
  (populateSheets stream mapping master).map (fun l => (l, missingSheets master stream))

/-- `extract_syscad_params` of app.py (lines 144-156): the same two-state scan
as `paramRowsGo`, appending each stripped truthy column-2 value to a list. -/
def extractSyscadGo (s : Sheet) : List Nat → Bool → Except String (List String)
  | [], _ => .ok []
  | r :: rs, inB =>
    if inB || labelOpens (getVal s r 1) then
      if labelCloses (getVal s r 1) then .ok []
      else
        match getVal s r 2 with
        | some pv =>
          if truthyV pv then
            match pyStripV pv with
            | .error e => .error e
            | .ok k =>
              match extractSyscadGo s rs (inB || labelOpens (getVal s r 1)) with
              | .error e => .error e
              | .ok rest => .ok (k :: rest)
          else extractSyscadGo s rs (inB || labelOpens (getVal s r 1))
        | none => extractSyscadGo s rs (inB || labelOpens (getVal s r 1))
    else extractSyscadGo s rs (inB || labelOpens (getVal s r 1))

def extract_syscad_params (s : Sheet) : Except String (List String) :=
  extractSyscadGo s (List.range' 1 s.maxRow) false

/-! ### Basic lemmas about cells, updates and dicts -/

theorem pyEqV_refl (v : CellValue) : pyEqV v v = true := by
  cases v <;> simp [pyEqV]

theorem getCell_upd (s : Sheet) (r c : Nat) (f : Cell → Cell) (r' c' : Nat) :
    getCell (updCell s r c f) r' c' =
      if r = r' ∧ c = c' then f (getCell s r c) else getCell s r' c' := by
  by_cases h : r = r' ∧ c = c'
  · rcases h with ⟨h1, h2⟩
    subst h1; subst h2
    simp [getCell, updCell, List.find?]
  · have hne : ¬((r, c) = (r', c')) := by
      simp only [Prod.mk.injEq]; tauto
    have hb : (((r, c) : Nat × Nat) == (r', c')) = false := by
      simpa using hne
    simp [getCell, updCell, List.find?, hb, h]

theorem getCell_writeVal (s : Sheet) (r c : Nat) (v : CellValue) (r' c' : Nat) :
    getCell (writeValCell s r c v) r' c' =
      if r = r' ∧ c = c' then ⟨some v, (getCell s r c).bold, true⟩
      else getCell s r' c' := by
  unfold writeValCell
  rw [getCell_upd]

theorem getVal_writeVal (s : Sheet) (r c : Nat) (v : CellValue) (r' c' : Nat) :
    getVal (writeValCell s r c v) r' c' =
      if r = r' ∧ c = c' then some v else getVal s r' c' := by
  unfold getVal
  rw [getCell_writeVal]
  by_cases h : r = r' ∧ c = c' <;> simp [h]

theorem getVal_writeVal_ne_col (s : Sheet) (r c : Nat) (v : CellValue) (r' c' : Nat)
    (h : c ≠ c') : getVal (writeValCell s r c v) r' c' = getVal s r' c' := by
  rw [getVal_writeVal, if_neg]
  rintro ⟨_, h2⟩
  exact h h2

theorem getVal_writeVal_ne_row (s : Sheet) (r c : Nat) (v : CellValue) (r' c' : Nat)
    (h : r ≠ r') : getVal (writeValCell s r c v) r' c' = getVal s r' c' := by
  rw [getVal_writeVal, if_neg]
  rintro ⟨h1, _⟩
  exact h h1

theorem getCell_writeHeader (s : Sheet) (r c : Nat) (v : CellValue) (r' c' : Nat) :
    getCell (writeHeaderCell s r c v) r' c' =
      if r = r' ∧ c = c' then ⟨some v, true, true⟩ else getCell s r' c' := by
  unfold writeHeaderCell
  rw [getCell_upd]

theorem maxRow_writeVal (s : Sheet) (r c : Nat) (v : CellValue) :
    (writeValCell s r c v).maxRow = max s.maxRow r := rfl

theorem maxCol_writeVal (s : Sheet) (r c : Nat) (v : CellValue) :
    (writeValCell s r c v).maxCol = max s.maxCol c := rfl

theorem dictGet_insert {α : Type} (d : Dict α) (k : String) (v : α) (p : String) :
    dictGet (dictInsert k v d) p = if k = p then some v else dictGet d p := by
  by_cases h : k = p
  · simp [dictGet, dictInsert, List.find?, h]
  · have hb : (k == p) = false := by simpa using h
    simp [dictGet, dictInsert, List.find?, hb, h]

theorem dictGet_foldIns (l : List (String × Nat)) (p : String) :
    dictGet (foldIns l) p = (l.reverse.find? (fun e => e.1 == p)).map Prod.snd := by
  induction l using List.reverseRecOn with
  | nil => simp [foldIns, dictGet, List.find?]
  | append_singleton l e ih =>
    have hfold : foldIns (l ++ [e]) = dictInsert e.1 e.2 (foldIns l) := by
      simp [foldIns, List.foldl_append]
    rw [hfold, dictGet_insert]
    by_cases h : e.1 = p
    · have hb : (e.1 == p) = true := by simpa using h
      simp [List.find?, hb, h]
    · have hb : (e.1 == p) = false := by simpa using h
      simp [List.find?, hb, h, ih]

/-! ### Header overwrite lemmas -/

theorem headerWrite_frame (ts : List CellValue) :
    ∀ (m : Sheet) (i r c : Nat), (r ≠ 3 ∨ c < 4 + i ∨ 4 + i + ts.length ≤ c) →
      getCell (headerWrite m i ts) r c = getCell m r c := by
  induction ts with
  | nil => intro m i r c _; rfl
  | cons t ts ih =>
    intro m i r c h
    have hlen : 4 + i + (t :: ts).length = 4 + (i + 1) + ts.length := by
      simp only [List.length_cons]; omega
    have h' : r ≠ 3 ∨ c < 4 + (i + 1) ∨ 4 + (i + 1) + ts.length ≤ c := by
      rcases h with h | h | h
      · exact Or.inl h
      · right; left; omega
      · right; right; omega
    have hstep : getCell (headerWrite m i (t :: ts)) r c =
        getCell (headerWrite (writeHeaderCell m 3 (4 + i) t) (i + 1) ts) r c := rfl
    rw [hstep, ih _ (i + 1) r c h', getCell_writeHeader, if_neg]
    rintro ⟨h1, h2⟩
    rcases h with h | h | h
    · exact h h1.symm
    · omega
    · omega

theorem headerWrite_get (ts : List CellValue) :
    ∀ (m : Sheet) (i j : Nat) (h : j < ts.length),
      getCell (headerWrite m i ts) 3 (4 + i + j) = ⟨some (ts.get ⟨j, h⟩), true, true⟩ := by
  induction ts with
  | nil => intro m i j h; simp at h
  | cons t ts ih =>
    intro m i j h
    have hstep : ∀ c, getCell (headerWrite m i (t :: ts)) 3 c =
        getCell (headerWrite (writeHeaderCell m 3 (4 + i) t) (i + 1) ts) 3 c :=
      fun _ => rfl
    match j with
    | 0 =>
      simp only [Nat.add_zero]
      rw [hstep, headerWrite_frame ts _ (i + 1) 3 (4 + i) (Or.inr (Or.inl (by omega)))]
      rw [getCell_writeHeader]
      simp
    | j + 1 =>
      have hj : j < ts.length := by simp only [List.length_cons] at h; omega
      have hrec := ih (writeHeaderCell m 3 (4 + i) t) (i + 1) j hj
      have harith : 4 + (i + 1) + j = 4 + i + (j + 1) := by omega
      rw [harith] at hrec
      rw [hstep, hrec]
      rfl

theorem headerOverwrite_get (m : Sheet) (ts : List CellValue) (j : Nat) (h : j < ts.length) :
    getCell (headerOverwrite m ts) 3 (4 + j) = ⟨some (ts.get ⟨j, h⟩), true, true⟩ := by
  have := headerWrite_get ts m 0 j h
  simpa using this

theorem headerOverwrite_frame (m : Sheet) (ts : List CellValue) (r c : Nat)
    (h : r ≠ 3 ∨ c < 4 ∨ 4 + ts.length ≤ c) :
    getCell (headerOverwrite m ts) r c = getCell m r c := by
  apply headerWrite_frame
  rcases h with h | h | h
  · exact Or.inl h
  · exact Or.inr (Or.inl (by omega))
  · exact Or.inr (Or.inr (by omega))

theorem headerWrite_maxRow (ts : List CellValue) :
    ∀ (m : Sheet) (i : Nat),
      (headerWrite m i ts).maxRow = if ts.isEmpty then m.maxRow else max m.maxRow 3 := by
  induction ts with
  | nil => intro m i; rfl
  | cons t ts ih =>
    intro m i
    show (headerWrite (writeHeaderCell m 3 (4 + i) t) (i + 1) ts).maxRow = _
    rw [ih]
    cases ts
    · simp [writeHeaderCell, updCell]
    · simp only [List.isEmpty_cons, writeHeaderCell, updCell, if_false, Bool.false_eq_true]
      omega

theorem headerWrite_maxCol (ts : List CellValue) :
    ∀ (m : Sheet) (i : Nat),
      (headerWrite m i ts).maxCol =
        if ts.isEmpty then m.maxCol else max m.maxCol (3 + i + ts.length) := by
  induction ts with
  | nil => intro m i; rfl
  | cons t ts ih =>
    intro m i
    show (headerWrite (writeHeaderCell m 3 (4 + i) t) (i + 1) ts).maxCol = _
    rw [ih]
    cases ts <;> simp [writeHeaderCell, updCell, List.length_cons] <;> omega

/-! ### Tag collection lemmas -/

theorem collectTags_truthy (s : Sheet) (row : Nat) :
    ∀ v ∈ collectTags s row, truthyV v = true := by
  intro v hv
  unfold collectTags at hv
  rw [List.mem_filterMap] at hv
  obtain ⟨c, _, hc⟩ := hv
  revert hc
  cases getVal s row c with
  | none => intro h; cases h
  | some w =>
    by_cases ht : truthyV w = true
    · intro h
      simp only [ht, if_true, Option.some.injEq] at h
      rw [← h]; exact ht
    · intro h
      simp only [ht] at h
      cases h

theorem filterMap_range'_exact (f : Nat → Option CellValue) :
    ∀ (l : List CellValue) (c : Nat),
      (∀ j (h : j < l.length), f (c + j) = some (l.get ⟨j, h⟩)) →
      (List.range' c l.length).filterMap f = l := by
  intro l
  induction l with
  | nil => intro c _; rfl
  | cons t ts ih =>
    intro c hf
    have h0 : f c = some t := by
      have := hf 0 (by simp)
      simpa using this
    have hrange : List.range' c (t :: ts).length = c :: List.range' (c + 1) ts.length := by
      simp [List.range'_succ]
    rw [hrange, List.filterMap_cons, h0]
    have htail : (List.range' (c + 1) ts.length).filterMap f = ts := by
      apply ih
      intro j hj
      have := hf (j + 1) (by simp only [List.length_cons]; omega)
      have harith : c + (j + 1) = c + 1 + j := by omega
      rw [harith] at this
      simpa using this
    simp [htail]

/-- After the header overwrite, the collected master tag list starts with
exactly the streamtable tags, in streamtable order. -/
theorem collectTags_headerOverwrite (m : Sheet) (ts : List CellValue)
    (hts : ∀ v ∈ ts, truthyV v = true) :
    (collectTags (headerOverwrite m ts) 3).take ts.length = ts ∧
      ts.length ≤ (collectTags (headerOverwrite m ts) 3).length := by
  cases hts0 : ts with
  | nil => simp
  | cons t0 ts0 =>
    rw [← hts0]
    have hne : ts.isEmpty = false := by rw [hts0]; rfl
    have hmc : (headerOverwrite m ts).maxCol = max m.maxCol (3 + ts.length) := by
      have := headerWrite_maxCol ts m 0
      rw [hne] at this
      simpa [headerOverwrite] using this
    have hlen : (headerOverwrite m ts).maxCol - 3 =
        ts.length + ((headerOverwrite m ts).maxCol - 3 - ts.length) := by
      rw [hmc]; omega
    set f : Nat → Option CellValue := fun c =>
      match getVal (headerOverwrite m ts) 3 c with
      | some v => if truthyV v then some v else none
      | none => none with hfdef
    have happ := List.range'_append 4 ts.length
      ((headerOverwrite m ts).maxCol - 3 - ts.length) 1
    rw [one_mul] at happ
    have hsplit : List.range' 4 ((headerOverwrite m ts).maxCol - 3) =
        List.range' 4 ts.length ++ List.range' (4 + ts.length)
          ((headerOverwrite m ts).maxCol - 3 - ts.length) := by
      rw [happ]
      congr 1
      omega
    have hpre : (List.range' 4 ts.length).filterMap f = ts := by
      apply filterMap_range'_exact
      intro j hj
      have hget := headerOverwrite_get m ts j hj
      have hval : getVal (headerOverwrite m ts) 3 (4 + j) = some (ts.get ⟨j, hj⟩) := by
        unfold getVal; rw [hget]
      rw [hfdef]
      simp only [hval]
      rw [hts (ts.get ⟨j, hj⟩) (ts.get_mem _ _)]
      simp
    have hco : collectTags (headerOverwrite m ts) 3 =
        ts ++ (List.range' (4 + ts.length)
          ((headerOverwrite m ts).maxCol - 3 - ts.length)).filterMap f := by
      unfold collectTags
      rw [hsplit, List.filterMap_append, hpre]
    rw [hco]
    constructor
    · simp
    · simp

/-! ### Correspondence between the param-rows dict and its insertion sequence -/

theorem paramRowsGo_entries (s : Sheet) :
    ∀ (rows : List Nat) (inB : Bool) (d : Dict Nat),
      paramRowsGo s rows inB d =
        (paramEntriesGo s rows inB).map
          (fun l => l.foldl (fun d e => dictInsert e.1 e.2 d) d) := by
  intro rows
  induction rows with
  | nil => intro inB d; rfl
  | cons r rs ih =>
    intro inB d
    unfold paramRowsGo paramEntriesGo
    by_cases hin : (inB || labelOpens (getVal s r 1)) = true
    · simp only [hin, if_true]
      by_cases hcl : labelCloses (getVal s r 1) = true
      · simp [hcl, Except.map]
      · simp only [hcl, if_false, Bool.false_eq_true]
        cases hv : getVal s r 2 with
        | none => exact ih _ _
        | some pv =>
          by_cases ht : truthyV pv = true
          · simp only [ht, if_true]
            cases hst : pyStripV pv with
            | error e => simp [Except.map]
            | ok k =>
              dsimp only
              rw [ih]
              cases paramEntriesGo s rs true <;>
                simp [Except.map, List.foldl_cons]
          · simp only [ht, if_false, Bool.false_eq_true]
            exact ih _ _
    · simp only [hin, if_false, Bool.false_eq_true]
      exact ih _ _

theorem buildParamRows_entries (s : Sheet) :
    buildParamRows s = (paramEntries s).map foldIns := by
  unfold buildParamRows paramEntries foldIns
  exact paramRowsGo_entries s _ false []

/-- `extract_syscad_params` of app.py collects exactly the names of the
insertion sequence, in order. -/
theorem extractSyscadGo_entries (s : Sheet) :
    ∀ (rows : List Nat) (inB : Bool),
      extractSyscadGo s rows inB = (paramEntriesGo s rows inB).map (List.map Prod.fst) := by
  intro rows
  induction rows with
  | nil => intro inB; rfl
  | cons r rs ih =>
    intro inB
    unfold extractSyscadGo paramEntriesGo
    by_cases hin : (inB || labelOpens (getVal s r 1)) = true
    · simp only [hin, if_true]
      by_cases hcl : labelCloses (getVal s r 1) = true
      · simp [hcl, Except.map]
      · simp only [hcl, if_false, Bool.false_eq_true]
        cases hv : getVal s r 2 with
        | none => exact ih _
        | some pv =>
          by_cases ht : truthyV pv = true
          · simp only [ht, if_true]
            cases hst : pyStripV pv with
            | error e => simp [Except.map]
            | ok k =>
              dsimp only
              rw [ih]
              cases paramEntriesGo s rs true <;>
                simp [Except.map]
          · simp only [ht, if_false, Bool.false_eq_true]
            exact ih _
    · simp only [hin, if_false, Bool.false_eq_true]
      exact ih _

/-- Every recorded (name, row) insertion points at an in-range row whose
column-2 value is truthy and strips to that name. -/
theorem paramEntriesGo_sound (s : Sheet) :
    ∀ (rows : List Nat) (inB : Bool) (l : List (String × Nat)),
      paramEntriesGo s rows inB = .ok l →
      ∀ e ∈ l, e.2 ∈ rows ∧ ∃ pv, getVal s e.2 2 = some pv ∧
        truthyV pv = true ∧ pyStripV pv = .ok e.1 := by
  intro rows
  induction rows with
  | nil =>
    intro inB l hl e he
    unfold paramEntriesGo at hl
    cases hl
    cases he
  | cons r rs ih =>
    intro inB l hl e he
    unfold paramEntriesGo at hl
    by_cases hin : (inB || labelOpens (getVal s r 1)) = true
    · rw [if_pos hin] at hl
      by_cases hcl : labelCloses (getVal s r 1) = true
      · rw [if_pos hcl] at hl
        cases hl
        cases he
      · rw [if_neg (by simp [hcl])] at hl
        revert hl
        cases hv : getVal s r 2 with
        | none =>
          intro hl
          have := ih _ _ hl e he
          exact ⟨List.mem_cons_of_mem _ this.1, this.2⟩
        | some pv =>
          dsimp only
          by_cases ht : truthyV pv = true
          · rw [if_pos ht]
            cases hst : pyStripV pv with
            | error msg => intro hl; cases hl
            | ok k =>
              cases hrest : paramEntriesGo s rs (inB || labelOpens (getVal s r 1)) with
              | error msg => intro hl; cases hl
              | ok l0 =>
                intro hl
                rw [Except.ok.injEq] at hl
                subst hl
                rw [List.mem_cons] at he
                rcases he with he | he
                · subst he
                  refine ⟨List.mem_cons_self _ _, pv, ?_, ht, ?_⟩
                  · exact hv
                  · exact hst
                · have := ih _ _ hrest e he
                  exact ⟨List.mem_cons_of_mem _ this.1, this.2⟩
          · rw [if_neg ht]
            intro hl
            have := ih _ _ hl e he
            exact ⟨List.mem_cons_of_mem _ this.1, this.2⟩
    · rw [if_neg hin] at hl
      have := ih _ _ hl e he
      exact ⟨List.mem_cons_of_mem _ this.1, this.2⟩

/-- A row determines its recorded name: two insertions at the same row carry
the same key. -/
theorem paramEntries_row_key (s : Sheet) (l : List (String × Nat))
    (hl : paramEntries s = .ok l) :
    ∀ k1 k2 r, (k1, r) ∈ l → (k2, r) ∈ l → k1 = k2 := by
  intro k1 k2 r h1 h2
  obtain ⟨_, pv1, hv1, _, hs1⟩ := paramEntriesGo_sound s _ _ _ hl (k1, r) h1
  obtain ⟨_, pv2, hv2, _, hs2⟩ := paramEntriesGo_sound s _ _ _ hl (k2, r) h2
  rw [hv1] at hv2
  cases hv2
  rw [hs1] at hs2
  cases hs2
  rfl

/-- A hit in the param-rows dict comes from an insertion in the sequence. -/
theorem dictGet_paramRows_mem (s : Sheet) (l : List (String × Nat)) (prows : Dict Nat)
    (hl : paramEntries s = .ok l) (hp : buildParamRows s = .ok prows) :
    ∀ p r, dictGet prows p = some r → (p, r) ∈ l := by
  intro p r hget
  have := buildParamRows_entries s
  rw [hl, hp] at this
  simp only [Except.map] at this
  cases this
  rw [dictGet_foldIns] at hget
  cases hfind : (l.reverse.find? (fun e => e.1 == p)) with
  | none => rw [hfind] at hget; cases hget
  | some e =>
    rw [hfind] at hget
    simp only [Option.map_some'] at hget
    have hmem := List.mem_of_find?_eq_some hfind
    have hkey := List.find?_some hfind
    have hkey' : e.1 = p := by simpa using hkey
    rw [List.mem_reverse] at hmem
    have hsnd : e.2 = r := by injection hget
    have he2 : e = (p, r) := by
      rw [← hkey', ← hsnd]
    rw [← he2]
    exact hmem

/-- Rows recorded for distinct parameter names are distinct. -/
theorem paramRows_injective (s : Sheet) (l : List (String × Nat)) (prows : Dict Nat)
    (hl : paramEntries s = .ok l) (hp : buildParamRows s = .ok prows) :
    ∀ p1 p2 r, dictGet prows p1 = some r → dictGet prows p2 = some r → p1 = p2 := by
  intro p1 p2 r h1 h2
  exact paramEntries_row_key s l hl p1 p2 r
    (dictGet_paramRows_mem s l prows hl hp p1 r h1)
    (dictGet_paramRows_mem s l prows hl hp p2 r h2)

/-- The `.ok` outcome of the per-sheet pass, explicitly: success requires both
builders to succeed and delivers the nested fold from the post-overwrite
master. -/
theorem processSheet_ok (master stream : Sheet) (pairs : List (String × String))
    (m' : Sheet) (h : processSheet master stream pairs = .ok m') :
    ∃ trows prows, buildStreamTagToRow stream = .ok trows ∧
      buildParamRows (headerOverwrite master (collectTags stream 1)) = .ok prows ∧
      m' = ((collectTags (headerOverwrite master (collectTags stream 1)) 3).enum).foldl
        (colStep stream prows trows (collectTags stream 1) pairs)
        (headerOverwrite master (collectTags stream 1)) := by
  unfold processSheet at h
  cases htr : buildStreamTagToRow stream with
  | error e => rw [htr] at h; cases h
  | ok trows =>
    rw [htr] at h
    cases hpr : buildParamRows (headerOverwrite master (collectTags stream 1)) with
    | error e => rw [hpr] at h; cases h
    | ok prows =>
      rw [hpr] at h
      cases h
      exact ⟨trows, prows, rfl, rfl, rfl⟩

/-! ### Frame lemmas for the nested reconciliation folds -/

theorem getCell_writeVal_ne (s : Sheet) (r c : Nat) (v : CellValue) (r' c' : Nat)
    (h : ¬(r = r' ∧ c = c')) :
    getCell (writeValCell s r c v) r' c' = getCell s r' c' := by
  rw [getCell_writeVal, if_neg h]

theorem pairValue_frame (stream : Sheet) (sRow scol mRow mcol : Nat) (m : Sheet)
    (ρ c : Nat) (h : ¬(mRow = ρ ∧ mcol = c)) :
    getCell (pairValue stream sRow scol mRow mcol m) ρ c = getCell m ρ c := by
  unfold pairValue
  cases getVal stream sRow scol with
  | none => rfl
  | some v => rw [getCell_writeVal_ne _ _ _ _ _ _ h]

theorem pairUnit_frame (stream : Sheet) (sRow mRow : Nat) (m2 : Sheet)
    (ρ c : Nat) (h : ¬(mRow = ρ ∧ 3 = c)) :
    getCell (pairUnit stream sRow mRow m2) ρ c = getCell m2 ρ c := by
  unfold pairUnit
  by_cases hc : (truthy (getVal stream sRow 2) &&
      !(pyEqO (getVal m2 mRow 3) (getVal stream sRow 2))) = true
  · rw [if_pos hc]
    cases getVal stream sRow 2 with
    | none => rfl
    | some u => rw [getCell_writeVal_ne _ _ _ _ _ _ h]
  · rw [if_neg hc]

theorem pairStep_frame (stream : Sheet) (prows trows : Dict Nat) (scol mcol : Nat)
    (m : Sheet) (pr : String × String) (ρ c : Nat)
    (h : ∀ mRow sRow, dictGet prows pr.1 = some mRow → dictGet trows pr.2 = some sRow →
      ¬(mRow = ρ ∧ mcol = c) ∧ ¬(mRow = ρ ∧ 3 = c)) :
    getCell (pairStep stream prows trows scol mcol m pr) ρ c = getCell m ρ c := by
  unfold pairStep
  cases hp : dictGet prows pr.1 with
  | none => cases dictGet trows pr.2 <;> rfl
  | some mRow =>
    cases ht : dictGet trows pr.2 with
    | none => rfl
    | some sRow =>
      rw [pairUnit_frame _ _ _ _ _ _ (h mRow sRow hp ht).2,
        pairValue_frame _ _ _ _ _ _ _ _ (h mRow sRow hp ht).1]

theorem pairsFold_frame (stream : Sheet) (prows trows : Dict Nat) (scol mcol : Nat)
    (pairs : List (String × String)) :
    ∀ (m : Sheet) (ρ c : Nat),
      (∀ pr ∈ pairs, ∀ mRow sRow, dictGet prows pr.1 = some mRow →
        dictGet trows pr.2 = some sRow →
        ¬(mRow = ρ ∧ mcol = c) ∧ ¬(mRow = ρ ∧ 3 = c)) →
      getCell (List.foldl (pairStep stream prows trows scol mcol) m pairs) ρ c =
        getCell m ρ c := by
  induction pairs with
  | nil => intro m ρ c _; rfl
  | cons pr rest ih =>
    intro m ρ c h
    rw [List.foldl_cons]
    rw [ih _ ρ c (fun q hq => h q (List.mem_cons_of_mem _ hq))]
    exact pairStep_frame _ _ _ _ _ _ _ _ _ (h pr (List.mem_cons_self _ _))

theorem colStep_frame (stream : Sheet) (prows trows : Dict Nat)
    (stags : List CellValue) (pairs : List (String × String))
    (m : Sheet) (col : Nat × CellValue) (ρ c : Nat)
    (h : ∀ pr ∈ pairs, ∀ mRow sRow, dictGet prows pr.1 = some mRow →
      dictGet trows pr.2 = some sRow →
      ¬(mRow = ρ ∧ col.1 + 4 = c) ∧ ¬(mRow = ρ ∧ 3 = c)) :
    getCell (colStep stream prows trows stags pairs m col) ρ c = getCell m ρ c := by
  unfold colStep
  by_cases hmem : pyMem col.2 stags = true
  · rw [if_pos hmem]
    exact pairsFold_frame _ _ _ _ _ _ _ _ _ h
  · rw [if_neg hmem]

theorem colsFold_frame (stream : Sheet) (prows trows : Dict Nat)
    (stags : List CellValue) (pairs : List (String × String))
    (cols : List (Nat × CellValue)) :
    ∀ (m : Sheet) (ρ c : Nat),
      (∀ e ∈ cols, ∀ pr ∈ pairs, ∀ mRow sRow, dictGet prows pr.1 = some mRow →
        dictGet trows pr.2 = some sRow →
        ¬(mRow = ρ ∧ e.1 + 4 = c) ∧ ¬(mRow = ρ ∧ 3 = c)) →
      getCell (List.foldl (colStep stream prows trows stags pairs) m cols) ρ c =
        getCell m ρ c := by
  induction cols with
  | nil => intro m ρ c _; rfl
  | cons e rest ih =>
    intro m ρ c h
    rw [List.foldl_cons]
    rw [ih _ ρ c (fun e' he' => h e' (List.mem_cons_of_mem _ he'))]
    exact colStep_frame _ _ _ _ _ _ _ _ _ (h e (List.mem_cons_self _ _))

/-- With an empty streamtable tag list no master tag is ever found, so the
whole column loop is the identity. -/
theorem colsFold_empty_stags (stream : Sheet) (prows trows : Dict Nat)
    (pairs : List (String × String)) (cols : List (Nat × CellValue)) :
    ∀ m : Sheet, List.foldl (colStep stream prows trows [] pairs) m cols = m := by
  induction cols with
  | nil => intro m; rfl
  | cons e rest ih =>
    intro m
    rw [List.foldl_cons]
    have hstep : colStep stream prows trows [] pairs m e = m := by
      unfold colStep pyMem
      simp
    rw [hstep, ih]

/-! ### Behaviour of the folds at the written cells -/

theorem getVal_of_getCell {X Y : Sheet} {ρ c : Nat}
    (h : getCell X ρ c = getCell Y ρ c) : getVal X ρ c = getVal Y ρ c :=
  congrArg Cell.val h

theorem truthy_some {o : Option CellValue} (h : truthy o = true) :
    ∃ u, o = some u := by
  cases o with
  | none => cases h
  | some u => exact ⟨u, rfl⟩

theorem pairs_key_unique (pairs : List (String × String)) :
    (pairs.map Prod.fst).Nodup →
    ∀ p t u, (p, t) ∈ pairs → (p, u) ∈ pairs → t = u := by
  induction pairs with
  | nil => intro _ p t u h1; cases h1
  | cons q rest ih =>
    intro hnk p t u h1 h2
    rw [List.map_cons, List.nodup_cons] at hnk
    rw [List.mem_cons] at h1 h2
    rcases h1 with h1 | h1 <;> rcases h2 with h2 | h2
    · rw [← h1] at h2; exact (Prod.mk.injEq _ _ _ _ ▸ h2).2.symm
    · exfalso
      apply hnk.1
      rw [← h1]
      have hm := List.mem_map_of_mem Prod.fst h2
      exact hm
    · exfalso
      apply hnk.1
      rw [← h2]
      have hm := List.mem_map_of_mem Prod.fst h1
      exact hm
    · exact ih hnk.2 p t u h1 h2

/-- After the unit step for a pair with a truthy streamtable unit, the master
unit cell compares Python-equal to the streamtable unit. -/
theorem pairUnit_unit (stream : Sheet) (sRow mRow : Nat) (m2 : Sheet)
    (hsu : truthy (getVal stream sRow 2) = true) :
    pyEqO (getVal (pairUnit stream sRow mRow m2) mRow 3) (getVal stream sRow 2) = true := by
  obtain ⟨u, hu⟩ := truthy_some hsu
  unfold pairUnit
  by_cases hc : (truthy (getVal stream sRow 2) &&
      !(pyEqO (getVal m2 mRow 3) (getVal stream sRow 2))) = true
  · rw [if_pos hc, hu]
    have hw : getVal (writeValCell m2 mRow 3 u) mRow 3 = some u := by
      rw [getVal_writeVal, if_pos ⟨rfl, rfl⟩]
    rw [hw]
    exact pyEqV_refl u
  · rw [if_neg hc]
    rw [hsu] at hc
    simp only [Bool.true_and, Bool.not_eq_true'] at hc
    rw [Bool.not_eq_false] at hc
    exact hc

/-- When the streamtable unit is not truthy, or the master unit already
compares Python-equal to it, the unit step writes nothing at all. -/
theorem pairUnit_skip (stream : Sheet) (sRow mRow : Nat) (m2 : Sheet)
    (h : truthy (getVal stream sRow 2) = false ∨
      pyEqO (getVal m2 mRow 3) (getVal stream sRow 2) = true) :
    pairUnit stream sRow mRow m2 = m2 := by
  unfold pairUnit
  rw [if_neg]
  rcases h with h | h
  · rw [h]
    simp
  · rw [h]
    simp

/-- Establishing the unit property over the inner mapping fold: after the
fold, the unit cell of the mapped parameter row compares Python-equal to the
streamtable unit, provided the pair's two lookups hit, the streamtable unit is
truthy, and parameter keys are unique. -/
theorem pairsFold_unit (stream : Sheet) (prows trows : Dict Nat) (scol mcol : Nat)
    (pairs : List (String × String)) :
    ∀ (m : Sheet) (p t : String) (mRow sRow : Nat),
      (p, t) ∈ pairs →
      (pairs.map Prod.fst).Nodup →
      (∀ p1 p2 r, dictGet prows p1 = some r → dictGet prows p2 = some r → p1 = p2) →
      dictGet prows p = some mRow →
      dictGet trows t = some sRow →
      truthy (getVal stream sRow 2) = true →
      pyEqO (getVal (List.foldl (pairStep stream prows trows scol mcol) m pairs) mRow 3)
        (getVal stream sRow 2) = true := by
  induction pairs with
  | nil => intro m p t mRow sRow hmem; cases hmem
  | cons q rest ih =>
    intro m p t mRow sRow hmem hnk hinj hp ht hsu
    rw [List.map_cons, List.nodup_cons] at hnk
    rw [List.mem_cons] at hmem
    rw [List.foldl_cons]
    rcases hmem with hmem | hmem
    · subst hmem
      have hhead : pyEqO (getVal (pairStep stream prows trows scol mcol m (p, t)) mRow 3)
          (getVal stream sRow 2) = true := by
        unfold pairStep
        simp only [hp, ht]
        exact pairUnit_unit _ _ _ _ hsu
      have hframe : getCell (List.foldl (pairStep stream prows trows scol mcol)
          (pairStep stream prows trows scol mcol m (p, t)) rest) mRow 3 =
          getCell (pairStep stream prows trows scol mcol m (p, t)) mRow 3 := by
        apply pairsFold_frame
        intro pr hpr mr sr hmr hsr
        have hne : mr ≠ mRow := by
          intro heq
          rw [heq] at hmr
          have : pr.1 = p := hinj pr.1 p mRow hmr hp
          apply hnk.1
          rw [← this]
          have hm := List.mem_map_of_mem Prod.fst hpr
          exact hm
        constructor
        · rintro ⟨h1, _⟩; exact hne h1
        · rintro ⟨h1, _⟩; exact hne h1
      rw [getVal_of_getCell hframe]
      exact hhead
    · exact ih _ p t mRow sRow hmem hnk.2 hinj hp ht hsu

/-- Preservation of the unit cell value over the inner mapping fold: when the
streamtable unit is not truthy, or the unit cell already compares Python-equal
to it (and the only pair keyed `p` maps to `t`), the fold leaves the cell's
value untouched. -/
theorem pairsFold_pres (stream : Sheet) (prows trows : Dict Nat) (scol mcol : Nat)
    (hmc : mcol ≠ 3) (pairs : List (String × String)) :
    ∀ (m : Sheet) (p t : String) (mRow sRow : Nat),
      (∀ u, (p, u) ∈ pairs → u = t) →
      (∀ p1 p2 r, dictGet prows p1 = some r → dictGet prows p2 = some r → p1 = p2) →
      dictGet prows p = some mRow →
      dictGet trows t = some sRow →
      (truthy (getVal stream sRow 2) = false ∨
        pyEqO (getVal m mRow 3) (getVal stream sRow 2) = true) →
      getVal (List.foldl (pairStep stream prows trows scol mcol) m pairs) mRow 3 =
        getVal m mRow 3 := by
  induction pairs with
  | nil => intro m p t mRow sRow _ _ _ _ _; rfl
  | cons q rest ih =>
    intro m p t mRow sRow hu hinj hp ht hpres
    rw [List.foldl_cons]
    have hstep : getVal (pairStep stream prows trows scol mcol m q) mRow 3 =
        getVal m mRow 3 := by
      unfold pairStep
      cases hq : dictGet prows q.1 with
      | none => cases dictGet trows q.2 <;> rfl
      | some mr =>
        cases hq2 : dictGet trows q.2 with
        | none => rfl
        | some sr =>
          dsimp only
          by_cases hmr : mr = mRow
          · rw [hmr] at hq
            have hq1p : q.1 = p := hinj q.1 p mRow hq hp
            have hqeq : (p, q.2) = q := by
              rw [← hq1p]
            have hq2t : q.2 = t := by
              apply hu
              rw [hqeq]
              exact List.mem_cons_self _ _
            rw [hq2t] at hq2
            rw [ht] at hq2
            have hsr : sr = sRow := by
              injection hq2 with hji
              exact hji.symm
            rw [hsr, hmr]
            have hv : getVal (pairValue stream sRow scol mRow mcol m) mRow 3 =
                getVal m mRow 3 := by
              apply getVal_of_getCell
              apply pairValue_frame
              rintro ⟨_, h2⟩
              exact hmc h2
            rw [pairUnit_skip _ _ _ _
              (hpres.imp (fun hg => hg) (fun hg => by rw [hv]; exact hg)), hv]
          · apply getVal_of_getCell
            rw [pairUnit_frame _ _ _ _ _ _ (by rintro ⟨h1, _⟩; exact hmr h1)]
            exact pairValue_frame _ _ _ _ _ _ _ _ (by rintro ⟨h1, _⟩; exact hmr h1)
    rw [ih _ p t mRow sRow (fun u hu' => hu u (List.mem_cons_of_mem _ hu')) hinj hp ht
      (hpres.imp (fun hg => hg) (fun hg => by rw [hstep]; exact hg))]
    exact hstep

/-- The value actually delivered to the destination cell by the inner mapping
fold: the rounded source value when the source cell is non-empty, the
untouched previous value otherwise. -/
theorem pairsFold_value (stream : Sheet) (prows trows : Dict Nat) (scol mcol : Nat)
    (hmc : mcol ≠ 3) (pairs : List (String × String)) :
    ∀ (m : Sheet) (p t : String) (mRow sRow : Nat),
      (p, t) ∈ pairs →
      (pairs.map Prod.fst).Nodup →
      (∀ p1 p2 r, dictGet prows p1 = some r → dictGet prows p2 = some r → p1 = p2) →
      dictGet prows p = some mRow →
      dictGet trows t = some sRow →
      getVal (List.foldl (pairStep stream prows trows scol mcol) m pairs) mRow mcol =
        (match getVal stream sRow scol with
         | some v => some (pyRound2 v)
         | none => getVal m mRow mcol) := by
  induction pairs with
  | nil => intro m p t mRow sRow hmem; cases hmem
  | cons q rest ih =>
    intro m p t mRow sRow hmem hnk hinj hp ht
    rw [List.map_cons, List.nodup_cons] at hnk
    rw [List.mem_cons] at hmem
    rw [List.foldl_cons]
    rcases hmem with hmem | hmem
    · have hhead : getVal (pairStep stream prows trows scol mcol m q) mRow mcol =
          (match getVal stream sRow scol with
           | some v => some (pyRound2 v)
           | none => getVal m mRow mcol) := by
        rw [← hmem]
        unfold pairStep
        simp only [hp, ht]
        have hpu : getVal (pairUnit stream sRow mRow
            (pairValue stream sRow scol mRow mcol m)) mRow mcol =
            getVal (pairValue stream sRow scol mRow mcol m) mRow mcol := by
          apply getVal_of_getCell
          apply pairUnit_frame
          rintro ⟨_, h2⟩
          exact hmc h2.symm
        rw [hpu]
        unfold pairValue
        cases getVal stream sRow scol with
        | none => rfl
        | some v =>
          rw [getVal_writeVal, if_pos ⟨rfl, rfl⟩]
      have hframe : getCell (List.foldl (pairStep stream prows trows scol mcol)
          (pairStep stream prows trows scol mcol m q) rest) mRow mcol =
          getCell (pairStep stream prows trows scol mcol m q) mRow mcol := by
        apply pairsFold_frame
        intro pr hpr mr sr hmr hsr
        have hne : mr ≠ mRow := by
          intro heq
          rw [heq] at hmr
          have hpr1 : pr.1 = p := hinj pr.1 p mRow hmr hp
          apply hnk.1
          rw [← hmem, ← hpr1]
          have hm := List.mem_map_of_mem Prod.fst hpr
          exact hm
        constructor
        · rintro ⟨h1, _⟩; exact hne h1
        · rintro ⟨h1, _⟩; exact hne h1
      rw [getVal_of_getCell hframe]
      exact hhead
    · have hq1p : q.1 ≠ p := by
        intro heq
        apply hnk.1
        rw [← heq] at hmem
        have hm := List.mem_map_of_mem Prod.fst hmem
        exact hm
      have hstep : getCell (pairStep stream prows trows scol mcol m q) mRow mcol =
          getCell m mRow mcol := by
        apply pairStep_frame
        intro mr sr hmr hsr
        have hne : mr ≠ mRow := by
          intro heq
          rw [heq] at hmr
          exact hq1p (hinj q.1 p mRow hmr hp)
        constructor
        · rintro ⟨h1, _⟩; exact hne h1
        · rintro ⟨h1, _⟩; exact hne h1
      rw [ih _ p t mRow sRow hmem hnk.2 hinj hp ht, getVal_of_getCell hstep]

/-- Value delivery lifted to the column fold: at the column `4 + i` of a
surviving master tag at position `i`, the fold writes the rounded source value
from the streamtable column of that tag (or leaves the cell as it was when the
source cell is empty). -/
theorem colsFold_value (stream : Sheet) (prows trows : Dict Nat)
    (stags : List CellValue) (pairs : List (String × String))
    (cols : List (Nat × CellValue)) :
    ∀ (m : Sheet) (i : Nat) (tg : CellValue) (p t : String) (mRow sRow : Nat),
      (i, tg) ∈ cols →
      (cols.map Prod.fst).Nodup →
      pyMem tg stags = true →
      (p, t) ∈ pairs →
      (pairs.map Prod.fst).Nodup →
      (∀ p1 p2 r, dictGet prows p1 = some r → dictGet prows p2 = some r → p1 = p2) →
      dictGet prows p = some mRow →
      dictGet trows t = some sRow →
      getVal (List.foldl (colStep stream prows trows stags pairs) m cols) mRow (i + 4) =
        (match getVal stream sRow (pyIdx stags tg + 4) with
         | some v => some (pyRound2 v)
         | none => getVal m mRow (i + 4)) := by
  induction cols with
  | nil => intro m i tg p t mRow sRow hmem; cases hmem
  | cons e rest ih =>
    intro m i tg p t mRow sRow hmem hidx hsurv hpair hnk hinj hp ht
    rw [List.map_cons, List.nodup_cons] at hidx
    rw [List.mem_cons] at hmem
    rw [List.foldl_cons]
    rcases hmem with hmem | hmem
    · have hhead : getVal (colStep stream prows trows stags pairs m e) mRow (i + 4) =
          (match getVal stream sRow (pyIdx stags tg + 4) with
           | some v => some (pyRound2 v)
           | none => getVal m mRow (i + 4)) := by
        rw [← hmem]
        unfold colStep
        rw [if_pos hsurv]
        exact pairsFold_value stream prows trows _ _ (by omega) pairs m p t mRow sRow
          hpair hnk hinj hp ht
      have hframe : getCell (List.foldl (colStep stream prows trows stags pairs)
          (colStep stream prows trows stags pairs m e) rest) mRow (i + 4) =
          getCell (colStep stream prows trows stags pairs m e) mRow (i + 4) := by
        apply colsFold_frame
        intro e' he' pr hpr mr sr hmr hsr
        have hne : e'.1 ≠ i := by
          intro heq
          apply hidx.1
          rw [← hmem, ← heq]
          have hm := List.mem_map_of_mem Prod.fst he'
          exact hm
        constructor
        · rintro ⟨_, h2⟩; omega
        · rintro ⟨_, h2⟩; omega
      rw [getVal_of_getCell hframe]
      exact hhead
    · have hne : e.1 ≠ i := by
        intro heq
        apply hidx.1
        rw [← heq] at hmem
        have hm := List.mem_map_of_mem Prod.fst hmem
        exact hm
      have hstep : getCell (colStep stream prows trows stags pairs m e) mRow (i + 4) =
          getCell m mRow (i + 4) := by
        apply colStep_frame
        intro pr hpr mr sr hmr hsr
        constructor
        · rintro ⟨_, h2⟩; omega
        · rintro ⟨_, h2⟩; omega
      rw [ih _ i tg p t mRow sRow hmem hidx.2 hsurv hpair hnk hinj hp ht,
        getVal_of_getCell hstep]

/-- Preservation of the unit cell value over the column fold. -/
theorem colsFold_pres (stream : Sheet) (prows trows : Dict Nat)
    (stags : List CellValue) (pairs : List (String × String))
    (cols : List (Nat × CellValue)) :
    ∀ (m : Sheet) (p t : String) (mRow sRow : Nat),
      (∀ u, (p, u) ∈ pairs → u = t) →
      (∀ p1 p2 r, dictGet prows p1 = some r → dictGet prows p2 = some r → p1 = p2) →
      dictGet prows p = some mRow →
      dictGet trows t = some sRow →
      (truthy (getVal stream sRow 2) = false ∨
        pyEqO (getVal m mRow 3) (getVal stream sRow 2) = true) →
      getVal (List.foldl (colStep stream prows trows stags pairs) m cols) mRow 3 =
        getVal m mRow 3 := by
  induction cols with
  | nil => intro m p t mRow sRow _ _ _ _ _; rfl
  | cons e rest ih =>
    intro m p t mRow sRow hu hinj hp ht hpres
    rw [List.foldl_cons]
    have hstep : getVal (colStep stream prows trows stags pairs m e) mRow 3 =
        getVal m mRow 3 := by
      unfold colStep
      by_cases hsurv : pyMem e.2 stags = true
      · rw [if_pos hsurv]
        exact pairsFold_pres stream prows trows _ _ (by omega) pairs m p t mRow sRow
          hu hinj hp ht hpres
      · rw [if_neg hsurv]
    rw [ih _ p t mRow sRow hu hinj hp ht
      (hpres.imp (fun hg => hg) (fun hg => by rw [hstep]; exact hg))]
    exact hstep

/-- Establishing the unit property over the column fold: as soon as one column
survives the tag test, the unit cell of the mapped parameter row ends up
Python-equal to the streamtable unit. -/
theorem colsFold_unit (stream : Sheet) (prows trows : Dict Nat)
    (stags : List CellValue) (pairs : List (String × String))
    (cols : List (Nat × CellValue)) :
    ∀ (m : Sheet) (p t : String) (mRow sRow : Nat),
      (∃ e ∈ cols, pyMem e.2 stags = true) →
      (p, t) ∈ pairs →
      (pairs.map Prod.fst).Nodup →
      (∀ p1 p2 r, dictGet prows p1 = some r → dictGet prows p2 = some r → p1 = p2) →
      dictGet prows p = some mRow →
      dictGet trows t = some sRow →
      truthy (getVal stream sRow 2) = true →
      pyEqO (getVal (List.foldl (colStep stream prows trows stags pairs) m cols) mRow 3)
        (getVal stream sRow 2) = true := by
  induction cols with
  | nil =>
    intro m p t mRow sRow hex
    obtain ⟨e, he, _⟩ := hex
    cases he
  | cons e rest ih =>
    intro m p t mRow sRow hex hpair hnk hinj hp ht hsu
    rw [List.foldl_cons]
    by_cases hsurv : pyMem e.2 stags = true
    · have hhead : pyEqO (getVal (colStep stream prows trows stags pairs m e) mRow 3)
          (getVal stream sRow 2) = true := by
        unfold colStep
        rw [if_pos hsurv]
        exact pairsFold_unit stream prows trows _ _ pairs m p t mRow sRow
          hpair hnk hinj hp ht hsu
      have hu : ∀ u, (p, u) ∈ pairs → u = t :=
        fun u hu' => pairs_key_unique pairs hnk p u t hu' hpair
      rw [colsFold_pres stream prows trows stags pairs rest _ p t mRow sRow
        hu hinj hp ht (Or.inr hhead)]
      exact hhead
    · have hstep : colStep stream prows trows stags pairs m e = m := by
        unfold colStep
        rw [if_neg hsurv]
      rw [hstep]
      apply ih _ p t mRow sRow _ hpair hnk hinj hp ht hsu
      obtain ⟨e', he', hs'⟩ := hex
      rw [List.mem_cons] at he'
      rcases he' with he' | he'
      · rw [he'] at hs'; exact absurd hs' hsurv
      · exact ⟨e', he', hs'⟩

/-! ### Survivor existence and tag-position lemmas -/

theorem pyMem_of_mem (v : CellValue) (l : List CellValue) (h : v ∈ l) :
    pyMem v l = true := by
  unfold pyMem
  rw [List.any_eq_true]
  exact ⟨v, h, pyEqV_refl v⟩

theorem mem_enum_of_lt (l : List CellValue) (i : Nat) (h : i < l.length) :
    (i, l.get ⟨i, h⟩) ∈ l.enum := by
  have h2 : i < l.enum.length := by simp [List.enum_length, h]
  have h3 := List.getElem_mem h2
  rw [List.getElem_enum] at h3
  exact h3

/-- The master tag at a position inside the overwritten prefix is the
streamtable tag of the same position. -/
theorem mtags_position (m : Sheet) (stags : List CellValue)
    (hts : ∀ v ∈ stags, truthyV v = true) (i : Nat) (hi : i < stags.length)
    (hlen : i < (collectTags (headerOverwrite m stags) 3).length) :
    (collectTags (headerOverwrite m stags) 3).get ⟨i, hlen⟩ = stags.get ⟨i, hi⟩ := by
  obtain ⟨htake, hle⟩ := collectTags_headerOverwrite m stags hts
  have hti : i < ((collectTags (headerOverwrite m stags) 3).take stags.length).length := by
    rw [htake]
    exact hi
  have h2 : ((collectTags (headerOverwrite m stags) 3).take stags.length).get ⟨i, hti⟩ =
      (collectTags (headerOverwrite m stags) 3).get ⟨i, hlen⟩ := by
    simp only [List.get_eq_getElem]
    exact List.getElem_take _
  rw [← h2]
  simp only [List.get_eq_getElem]
  simp only [htake]

/-- With a non-empty streamtable tag list, the column loop always sees a
surviving column (position 0 carries the first streamtable tag). -/
theorem exists_survivor (m : Sheet) (stags : List CellValue)
    (hts : ∀ v ∈ stags, truthyV v = true) (hne : stags ≠ []) :
    ∃ e ∈ (collectTags (headerOverwrite m stags) 3).enum, pyMem e.2 stags = true := by
  obtain ⟨htake, hle⟩ := collectTags_headerOverwrite m stags hts
  have hpos : 0 < stags.length := List.length_pos.mpr hne
  have hlen : 0 < (collectTags (headerOverwrite m stags) 3).length := by omega
  refine ⟨(0, (collectTags (headerOverwrite m stags) 3).get ⟨0, hlen⟩),
    mem_enum_of_lt _ 0 hlen, ?_⟩
  rw [mtags_position m stags hts 0 hpos hlen]
  exact pyMem_of_mem _ _ (stags.get_mem _ _)

/-- A master tag skipped by the column loop sits at a position at or beyond
the overwritten prefix. -/
theorem skipped_position (m : Sheet) (stags : List CellValue)
    (hts : ∀ v ∈ stags, truthyV v = true) (i : Nat)
    (hlen : i < (collectTags (headerOverwrite m stags) 3).length)
    (hskip : pyMem ((collectTags (headerOverwrite m stags) 3).get ⟨i, hlen⟩) stags
      = false) :
    stags.length ≤ i := by
  by_contra hlt
  push_neg at hlt
  rw [mtags_position m stags hts i hlt hlen] at hskip
  rw [pyMem_of_mem _ _ (stags.get_mem _ _)] at hskip
  cases hskip

/-! ### maxRow invariance of the reconciliation folds -/

theorem pairValue_maxRow (stream : Sheet) (sRow scol mRow mcol : Nat) (m : Sheet)
    (h : mRow ≤ m.maxRow) :
    (pairValue stream sRow scol mRow mcol m).maxRow = m.maxRow := by
  unfold pairValue
  cases getVal stream sRow scol with
  | none => rfl
  | some v =>
    rw [maxRow_writeVal]
    omega

theorem pairUnit_maxRow (stream : Sheet) (sRow mRow : Nat) (m2 : Sheet)
    (h : mRow ≤ m2.maxRow) :
    (pairUnit stream sRow mRow m2).maxRow = m2.maxRow := by
  unfold pairUnit
  by_cases hc : (truthy (getVal stream sRow 2) &&
      !(pyEqO (getVal m2 mRow 3) (getVal stream sRow 2))) = true
  · rw [if_pos hc]
    cases getVal stream sRow 2 with
    | none => rfl
    | some u =>
      rw [maxRow_writeVal]
      omega
  · rw [if_neg hc]

theorem pairStep_maxRow (stream : Sheet) (prows trows : Dict Nat) (scol mcol : Nat)
    (m : Sheet) (pr : String × String)
    (h : ∀ mr, dictGet prows pr.1 = some mr → mr ≤ m.maxRow) :
    (pairStep stream prows trows scol mcol m pr).maxRow = m.maxRow := by
  unfold pairStep
  cases hq : dictGet prows pr.1 with
  | none => cases dictGet trows pr.2 <;> rfl
  | some mr =>
    cases dictGet trows pr.2 with
    | none => rfl
    | some sr =>
      dsimp only
      have hb := h mr hq
      rw [pairUnit_maxRow _ _ _ _ (by rw [pairValue_maxRow _ _ _ _ _ _ hb]; exact hb)]
      exact pairValue_maxRow _ _ _ _ _ _ hb

theorem pairsFold_maxRow (stream : Sheet) (prows trows : Dict Nat) (scol mcol : Nat)
    (pairs : List (String × String)) :
    ∀ m : Sheet,
      (∀ pr ∈ pairs, ∀ mr, dictGet prows pr.1 = some mr → mr ≤ m.maxRow) →
      (List.foldl (pairStep stream prows trows scol mcol) m pairs).maxRow = m.maxRow := by
  induction pairs with
  | nil => intro m _; rfl
  | cons q rest ih =>
    intro m h
    rw [List.foldl_cons]
    have hstep := pairStep_maxRow stream prows trows scol mcol m q
      (h q (List.mem_cons_self _ _))
    rw [ih _ (fun pr hpr mr hmr => by
      rw [hstep]
      exact h pr (List.mem_cons_of_mem _ hpr) mr hmr)]
    exact hstep

theorem colsFold_maxRow (stream : Sheet) (prows trows : Dict Nat)
    (stags : List CellValue) (pairs : List (String × String))
    (cols : List (Nat × CellValue)) :
    ∀ m : Sheet,
      (∀ pr ∈ pairs, ∀ mr, dictGet prows pr.1 = some mr → mr ≤ m.maxRow) →
      (List.foldl (colStep stream prows trows stags pairs) m cols).maxRow = m.maxRow := by
  induction cols with
  | nil => intro m _; rfl
  | cons e rest ih =>
    intro m h
    rw [List.foldl_cons]
    have hstep : (colStep stream prows trows stags pairs m e).maxRow = m.maxRow := by
      unfold colStep
      by_cases hsurv : pyMem e.2 stags = true
      · rw [if_pos hsurv]
        exact pairsFold_maxRow stream prows trows _ _ pairs m h
      · rw [if_neg hsurv]
    rw [ih _ (fun pr hpr mr hmr => by
      rw [hstep]
      exact h pr hpr mr hmr)]
    exact hstep

/-- A recorded parameter row is within the scanned range. -/
theorem paramEntries_row_le (s : Sheet) (l : List (String × Nat))
    (hl : paramEntries s = .ok l) :
    ∀ e ∈ l, 1 ≤ e.2 ∧ e.2 ≤ s.maxRow := by
  intro e he
  have := (paramEntriesGo_sound s _ _ _ hl e he).1
  rw [List.mem_range'_1] at this
  omega

/-! ### Congruence of the block scan in the label and name columns -/

theorem paramRowsGo_congr (s s' : Sheet)
    (h1 : ∀ r, getVal s r 1 = getVal s' r 1)
    (h2 : ∀ r, getVal s r 2 = getVal s' r 2) :
    ∀ (rows : List Nat) (inB : Bool) (d : Dict Nat),
      paramRowsGo s rows inB d = paramRowsGo s' rows inB d := by
  intro rows
  induction rows with
  | nil => intro inB d; rfl
  | cons r rs ih =>
    intro inB d
    unfold paramRowsGo
    rw [h1 r, h2 r]
    by_cases hin : (inB || labelOpens (getVal s' r 1)) = true
    · rw [if_pos hin, if_pos hin]
      by_cases hcl : labelCloses (getVal s' r 1) = true
      · rw [if_pos hcl, if_pos hcl]
      · rw [if_neg hcl, if_neg hcl]
        cases getVal s' r 2 with
        | none => exact ih _ _
        | some pv =>
          dsimp only
          by_cases ht : truthyV pv = true
          · rw [if_pos ht, if_pos ht]
            cases pyStripV pv with
            | error e => rfl
            | ok k => exact ih _ _
          · rw [if_neg ht, if_neg ht]
            exact ih _ _
    · rw [if_neg hin, if_neg hin]
      exact ih _ _

theorem buildParamRows_congr (s s' : Sheet)
    (h1 : ∀ r, getVal s r 1 = getVal s' r 1)
    (h2 : ∀ r, getVal s r 2 = getVal s' r 2)
    (hmr : s.maxRow = s'.maxRow) :
    buildParamRows s = buildParamRows s' := by
  unfold buildParamRows
  rw [hmr]
  exact paramRowsGo_congr s s' h1 h2 _ false []

/-! ### Concrete workbooks used for counterexamples and witnesses -/

/-- Build a sheet from plain values (no formatting), as a freshly loaded
workbook presents them. -/
def mkSheet (l : List ((Nat × Nat) × CellValue)) (mr mc : Nat) : Sheet :=
  ⟨l.map (fun e => (e.1, ⟨some e.2, false, false⟩)), mr, mc⟩

def emptySheet : Sheet := ⟨[], 1, 1⟩

/-- Python `sorted` order on strings (lexicographic by code point), as a
computable predicate on lists. -/
def listLeChar : List Char → List Char → Bool
  | [], _ => true
  | _ :: _, [] => false
  | a :: as, b :: bs => if a < b then true else if a = b then listLeChar as bs else false

def pyStrLe (a b : String) : Bool := listLeChar a.data b.data

def strSorted : List String → Bool
  | [] => true
  | [_] => true
  | a :: b :: rest => pyStrLe a b && strSorted (b :: rest)

/-! ### C2 -/

/-- C2: for every equipment sheet processed with a non-empty mapping, the pass
first overwrites master header row 3, columns `4 .. 3 + n`, with the
streamtable's `n` unit tags in streamtable order, set bold and bordered — and
since the master's own tag list is collected only afterwards (from
`headerOverwrite master …` inside `processSheet`), the collected list begins
with exactly the streamtable's tags: for those columns the master's original
header and column order are replaced by the streamtable's. -/
theorem c2_header_replaced (master stream : Sheet) :
    (∀ i (h : i < (collectTags stream 1).length),
      getCell (headerOverwrite master (collectTags stream 1)) 3 (4 + i) =
        ⟨some ((collectTags stream 1).get ⟨i, h⟩), true, true⟩) ∧
    (collectTags (headerOverwrite master (collectTags stream 1)) 3).take
        (collectTags stream 1).length = collectTags stream 1 := by
  constructor
  · intro i h
    exact headerOverwrite_get master _ i h
  · exact (collectTags_headerOverwrite master _ (collectTags_truthy stream 1)).1

def c2m : Sheet := mkSheet [((1, 1), .vStr "SysCAD Inputs"), ((2, 2), .vStr "P"),
  ((3, 4), .vStr "A")] 3 4

def c2s : Sheet := mkSheet [((1, 4), .vStr "S"), ((1, 5), .vStr "T2"),
  ((3, 3), .vStr "T1")] 3 5

/-- Witness for C2 at a concrete workbook: the master's original header "A" in
column 4 is replaced by the streamtable's first tag "S", bold and bordered,
and the collected master tag list starts with the streamtable's tags. -/
theorem c2_header_replaced_witness :
    getCell (headerOverwrite c2m (collectTags c2s 1)) 3 4 =
      ⟨some (.vStr "S"), true, true⟩ ∧
    (collectTags (headerOverwrite c2m (collectTags c2s 1)) 3).take 2 =
      [.vStr "S", .vStr "T2"] := by
  have h := c2_header_replaced c2m c2s
  constructor
  · have h0 := h.1 0 (by decide)
    simpa using h0
  · have h1 := h.2
    simpa using h1

/-! ### C3 -/

def c3s : Sheet := mkSheet [((1, 4), .vStr "A"), ((1, 6), .vStr "B")] 1 6

/-- C3 counterexample: header collection does NOT stop at the first empty
cell.  On a header row "A", empty, "B" the code collects both tags, the tag
"B" sits at position 1 of the collected list although its cell is column 6,
and column `4 + 1` is empty — falsifying both "no tag after an empty header
cell is collected" and "the tag at position `i` always corresponds to column
`4 + i`". -/
theorem c3_counterexample :
    collectTags c3s 1 = [.vStr "A", .vStr "B"] ∧
    getVal c3s 1 5 = none ∧
    getVal c3s 1 6 = some (.vStr "B") ∧
    ¬ getVal c3s 1 (4 + 1) = some (.vStr "B") := by
  refine ⟨by decide, by decide, by decide, by decide⟩

theorem filterMap_range'_get (f : Nat → Option CellValue) :
    ∀ (n c i : Nat),
      (∀ j, j ≤ i → ∃ v, f (c + j) = some v) →
      ∀ (hlen : i < ((List.range' c n).filterMap f).length),
      f (c + i) = some (((List.range' c n).filterMap f).get ⟨i, hlen⟩) := by
  intro n
  induction n with
  | zero =>
    intro c i _ hlen
    simp at hlen
  | succ n ih =>
    intro c i hf hlen
    obtain ⟨v0, hv0⟩ := hf 0 (Nat.zero_le i)
    rw [Nat.add_zero] at hv0
    have hrange : List.range' c (n + 1) = c :: List.range' (c + 1) n :=
      List.range'_succ c n 1
    match i with
    | 0 =>
      rw [Nat.add_zero, hv0]
      congr 1
      revert hlen
      rw [hrange, List.filterMap_cons, hv0]
      intro hlen
      rfl
    | i + 1 =>
      have hf' : ∀ j, j ≤ i → ∃ v, f (c + 1 + j) = some v := by
        intro j hj
        have := hf (j + 1) (by omega)
        have harith : c + (j + 1) = c + 1 + j := by omega
        rw [harith] at this
        exact this
      have hlen' : i < ((List.range' (c + 1) n).filterMap f).length := by
        revert hlen
        rw [hrange, List.filterMap_cons, hv0]
        intro hlen
        simp only [List.length_cons] at hlen
        omega
      have hrec := ih (c + 1) i hf' hlen'
      have harith : c + (i + 1) = c + 1 + i := by omega
      rw [harith, hrec]
      congr 1
      revert hlen
      rw [hrange, List.filterMap_cons, hv0]
      intro hlen
      rfl

/-- C3 amended: header collection reads the fixed header row from column 4 to
the last column, skipping empty or falsy cells and collecting the rest in
order; the tag at position `i` corresponds to column `4 + i` exactly when the
header cells of columns `4 .. 4 + i` are all non-empty (truthy) — tags after
an empty header cell ARE still collected, shifted left. -/
theorem c3_collect_contiguous (s : Sheet) (row i : Nat)
    (hlen : i < (collectTags s row).length)
    (hcontig : ∀ j, j ≤ i → truthy (getVal s row (4 + j)) = true) :
    getVal s row (4 + i) = some ((collectTags s row).get ⟨i, hlen⟩) := by
  have hf : ∀ j, j ≤ i → ∃ v,
      (fun c => match getVal s row c with
        | some v => if truthyV v then some v else none
        | none => none) (4 + j) = some v := by
    intro j hj
    have := hcontig j hj
    cases hv : getVal s row (4 + j) with
    | none => rw [hv] at this; cases this
    | some w =>
      rw [hv] at this
      have htw : truthyV w = true := this
      refine ⟨w, ?_⟩
      simp only [hv]
      rw [if_pos htw]
  have h := filterMap_range'_get _ (s.maxCol - 3) 4 i hf hlen
  revert h
  cases hv : getVal s row (4 + i) with
  | none =>
    have := hcontig i (le_refl i)
    rw [hv] at this
    cases this
  | some w =>
    have htw : truthyV w = true := by
      have := hcontig i (le_refl i)
      rw [hv] at this
      exact this
    simp only [hv]
    rw [if_pos htw]
    intro h
    exact h

def c3w : Sheet := mkSheet [((1, 4), .vStr "A"), ((1, 5), .vStr "B")] 1 5

/-- Witness for the amended C3 on a contiguous header. -/
theorem c3_collect_contiguous_witness :
    1 < (collectTags c3w 1).length ∧
    getVal c3w 1 (4 + 1) = some ((collectTags c3w 1).get ⟨1, by decide⟩) := by
  refine ⟨by decide, c3_collect_contiguous c3w 1 1 (by decide) ?_⟩
  intro j hj
  match j, hj with
  | 0, _ => decide
  | 1, _ => decide

/-! ### C5 -/

def c5s : Sheet := mkSheet [((1, 1), .vStr "SysCAD Inputs"), ((2, 2), .vStr "P"),
  ((3, 2), .vStr "P")] 3 2

/-- C5 counterexample: the same parameter name "P" appears at rows 2 and 3 of
the block; the lookup records row 3, the LAST occurrence, not the first — the
claim "records the row of the first occurrence" is false. -/
theorem c5_counterexample :
    buildParamRows c5s = .ok [("P", 3), ("P", 2)] ∧
    getVal c5s 2 2 = some (.vStr "P") ∧
    getVal c5s 3 2 = some (.vStr "P") ∧
    dictGet [("P", 3), ("P", 2)] "P" = some 3 ∧
    ¬ dictGet [("P", 3), ("P", 2)] "P" = some 2 := by
  refine ⟨by rfl, by decide, by decide, by decide, by decide⟩

/-- C5 amended: the parameter → row lookup is the insertion-order fold of the
block's (name, row) sequence, and looking a name up returns the row of its
LAST insertion (last occurrence wins); a duplicate name is not an error — the
scan's success is unchanged by duplicates, as the first conjunct shows by
relating the dict to the insertion sequence for every sheet. -/
theorem c5_last_occurrence_wins (s : Sheet) :
    buildParamRows s = (paramEntries s).map foldIns ∧
    (∀ (l : List (String × Nat)) (p : String),
      dictGet (foldIns l) p = (l.reverse.find? (fun e => e.1 == p)).map Prod.snd) :=
  ⟨buildParamRows_entries s, fun l p => dictGet_foldIns l p⟩

/-! ### C6 -/

def c6s : Sheet := mkSheet [((1, 1), .vStr "SysCAD Inputs"), ((1, 2), .vStr "Q"),
  ((2, 2), .vStr "P")] 2 2

/-- C6 counterexample: the opening row (column 1 contains "SysCAD Inputs")
carries "Q" in column 2, and "Q" IS recorded — by `populate_syscad_inputs`'s
block scan (row 1 in the lookup) and by app.py's `extract_syscad_params`
(first element of the list).  The claim that the opening row is never treated
as a parameter row is false. -/
theorem c6_counterexample :
    getVal c6s 1 1 = some (.vStr "SysCAD Inputs") ∧
    getVal c6s 1 2 = some (.vStr "Q") ∧
    buildParamRows c6s = .ok [("P", 2), ("Q", 1)] ∧
    dictGet [("P", 2), ("Q", 1)] "Q" = some 1 ∧
    extract_syscad_params c6s = .ok ["Q", "P"] := by
  refine ⟨by decide, by decide, by rfl, by decide, by rfl⟩

/-- A non-opening row seen with the flag down is skipped. -/
theorem paramEntriesGo_cons_skip (s : Sheet) (r : Nat) (rs : List Nat)
    (h : labelOpens (getVal s r 1) = false) :
    paramEntriesGo s (r :: rs) false = paramEntriesGo s rs false := by
  simp only [paramEntriesGo]
  rw [h]
  simp

/-- Skipping rows before the first opening row records nothing. -/
theorem paramEntriesGo_skip (s : Sheet) :
    ∀ (rows1 rows2 : List Nat),
      (∀ r ∈ rows1, labelOpens (getVal s r 1) = false) →
      paramEntriesGo s (rows1 ++ rows2) false = paramEntriesGo s rows2 false := by
  intro rows1
  induction rows1 with
  | nil => intro rows2 _; rfl
  | cons r rs ih =>
    intro rows2 h
    rw [List.cons_append]
    rw [paramEntriesGo_cons_skip s r _ (h r (List.mem_cons_self _ _))]
    exact ih rows2 (fun r' hr' => h r' (List.mem_cons_of_mem _ hr'))

/-- C6 amended: the opening row IS treated as a parameter row — whenever the
first row whose column-1 text contains "SysCAD Inputs" does not also contain
"Engineering Inputs" and holds a truthy column-2 value, that value's stripped
name is recorded (at the opening row) in the extraction sequence. -/
theorem c6_opening_row_recorded (s : Sheet) (r : Nat) (pv : CellValue) (k : String)
    (l : List (String × Nat))
    (hr : r ∈ List.range' 1 s.maxRow)
    (hopen : labelOpens (getVal s r 1) = true)
    (hnoclose : labelCloses (getVal s r 1) = false)
    (hfirst : ∀ r', r' < r → labelOpens (getVal s r' 1) = false)
    (hpv : getVal s r 2 = some pv)
    (ht : truthyV pv = true)
    (hst : pyStripV pv = .ok k)
    (hl : paramEntries s = .ok l) :
    (k, r) ∈ l := by
  rw [List.mem_range'_1] at hr
  have hsplit : List.range' 1 s.maxRow =
      List.range' 1 (r - 1) ++ List.range' r (s.maxRow - (r - 1)) := by
    have happ := List.range'_append 1 (r - 1) (s.maxRow - (r - 1)) 1
    rw [one_mul] at happ
    have h1 : 1 + (r - 1) = r := by omega
    rw [h1] at happ
    rw [happ]
    congr 1
    omega
  unfold paramEntries at hl
  rw [hsplit, paramEntriesGo_skip s _ _ (fun r' hr' => by
    rw [List.mem_range'_1] at hr'
    exact hfirst r' (by omega))] at hl
  have hlen : s.maxRow - (r - 1) = (s.maxRow - r) + 1 := by omega
  rw [hlen] at hl
  rw [List.range'_succ] at hl
  unfold paramEntriesGo at hl
  rw [hopen] at hl
  simp only [Bool.or_true, if_true] at hl
  rw [hnoclose] at hl
  simp only [if_false, Bool.false_eq_true] at hl
  rw [hpv] at hl
  dsimp only at hl
  rw [if_pos ht, hst] at hl
  revert hl
  cases paramEntriesGo s (List.range' (r + 1) (s.maxRow - r)) true with
  | error e => intro hl; cases hl
  | ok rest =>
    intro hl
    rw [Except.ok.injEq] at hl
    rw [← hl]
    exact List.mem_cons_self _ _

/-- Witness for the amended C6 at the concrete workbook of the
counterexample. -/
theorem c6_opening_row_recorded_witness :
    paramEntries c6s = .ok [("Q", 1), ("P", 2)] ∧ ("Q", 1) ∈ [("Q", 1), ("P", 2)] := by
  refine ⟨by rfl, ?_⟩
  apply c6_opening_row_recorded c6s 1 (.vStr "Q") "Q" _ (by decide) (by decide)
    (by decide) (fun r' hr' => by interval_cases r'; decide) (by decide)
    (by decide) (by rfl) (by rfl)

/-! ### C4 -/

def c4master : List (String × Sheet) := [("b", emptySheet), ("a", emptySheet)]

/-- C4 counterexample: with master sheets named "b", "a" (in that order) and
an empty streamtable, the returned missing-sheets list is ["b", "a"] — the
right names, each once, but NOT in sorted order (the source returns
`list(master_sheets - stream_sheets)` without sorting; CPython's set order is
hash-dependent and never guaranteed sorted). -/
theorem c4_counterexample :
    populate_syscad_inputs c4master [] [] = .ok (c4master, ["b", "a"]) ∧
    strSorted ["b", "a"] = false ∧ pyStrLe "b" "a" = false := by
  refine ⟨by rfl, by decide, by decide⟩

/-- C4 amended: the missing-sheets result contains exactly the equipment names
present in the master document but absent from the streamtable document, each
exactly once (given the master's sheet names are distinct, as openpyxl
guarantees), in unspecified order. -/
theorem c4_missing_contents (master stream : List (String × Sheet))
    (mapping : Dict (List (String × String)))
    (out : List (String × Sheet) × List String)
    (hout : populate_syscad_inputs master stream mapping = .ok out)
    (hnd : (master.map Prod.fst).Nodup) :
    out.2.Nodup ∧
    ∀ x, x ∈ out.2 ↔ (x ∈ master.map Prod.fst ∧ dictGet stream x = none) := by
  have h2 : out.2 = missingSheets master stream := by
    unfold populate_syscad_inputs at hout
    cases hps : populateSheets stream mapping master with
    | error e => rw [hps] at hout; cases hout
    | ok l =>
      rw [hps] at hout
      simp only [Except.map] at hout
      rw [Except.ok.injEq] at hout
      rw [← hout]
  rw [h2]
  unfold missingSheets
  constructor
  · exact hnd.filter _
  · intro x
    rw [List.mem_filter]
    simp [Option.isNone_iff_eq_none]

/-- Witness for the amended C4 at a concrete workbook pair. -/
theorem c4_missing_contents_witness :
    (c4master.map Prod.fst).Nodup ∧ (["b", "a"] : List String).Nodup := by
  refine ⟨by decide, ?_⟩
  exact (c4_missing_contents c4master [] [] (c4master, ["b", "a"]) (by rfl)
    (by decide)).1

/-! ### C9 -/

/-- Dropping the pairs whose parameter or tag lookup misses changes nothing in
the inner fold: such a pair's step is the identity. -/
theorem pairsFold_filter (stream : Sheet) (prows trows : Dict Nat) (scol mcol : Nat)
    (pairs : List (String × String)) :
    ∀ m : Sheet,
      List.foldl (pairStep stream prows trows scol mcol) m pairs =
      List.foldl (pairStep stream prows trows scol mcol) m
        (pairs.filter (fun pr => (dictGet prows pr.1).isSome &&
          (dictGet trows pr.2).isSome)) := by
  induction pairs with
  | nil => intro m; rfl
  | cons q rest ih =>
    intro m
    by_cases hkeep : ((dictGet prows q.1).isSome && (dictGet trows q.2).isSome) = true
    · simp only [List.filter_cons, hkeep, if_true, List.foldl_cons]
      exact ih _
    · simp only [List.filter_cons, hkeep, if_false, Bool.false_eq_true, List.foldl_cons]
      have hid : pairStep stream prows trows scol mcol m q = m := by
        unfold pairStep
        cases hq : dictGet prows q.1 with
        | none => cases dictGet trows q.2 <;> rfl
        | some mr =>
          cases hq2 : dictGet trows q.2 with
          | none => rfl
          | some sr =>
            rw [hq, hq2] at hkeep
            simp at hkeep
      rw [hid]
      exact ih _

/-- C9: a mapping pair whose master parameter is absent from the sheet's
parameter → row lookup, or whose stream tag is absent from the tag → row
lookup, contributes nothing and raises no error: the whole pass computes the
same result as with those pairs removed from the mapping, so every other pair
is still processed normally. -/
theorem c9_lookup_miss_skipped (master stream : Sheet) (pairs : List (String × String))
    (trows prows : Dict Nat)
    (htr : buildStreamTagToRow stream = .ok trows)
    (hpr : buildParamRows (headerOverwrite master (collectTags stream 1)) = .ok prows) :
    processSheet master stream pairs =
      processSheet master stream (pairs.filter
        (fun pr => (dictGet prows pr.1).isSome && (dictGet trows pr.2).isSome)) := by
  unfold processSheet
  rw [htr, hpr]
  dsimp only
  have hcol : colStep stream prows trows (collectTags stream 1) pairs =
      colStep stream prows trows (collectTags stream 1)
        (pairs.filter (fun pr => (dictGet prows pr.1).isSome &&
          (dictGet trows pr.2).isSome)) := by
    funext m col
    unfold colStep
    by_cases hsurv : pyMem col.2 (collectTags stream 1) = true
    · rw [if_pos hsurv, if_pos hsurv]
      exact pairsFold_filter stream prows trows _ _ pairs m
    · rw [if_neg hsurv, if_neg hsurv]
  rw [hcol]

def c9m : Sheet := mkSheet [((1, 1), .vStr "SysCAD Inputs"), ((2, 2), .vStr "P"),
  ((3, 4), .vStr "S")] 3 4

def c9s : Sheet := mkSheet [((1, 4), .vStr "S"), ((3, 3), .vStr "T1"),
  ((3, 4), .vInt 5)] 3 4

/-- Witness for C9 at a concrete workbook: the mapping carries a stale pair
("Ghost" → "FT-999") whose lookups miss; the pass equals the pass on the
filtered mapping, and the surviving pair still populates the master cell. -/
theorem c9_lookup_miss_skipped_witness :
    buildStreamTagToRow c9s = .ok [("T1", 3)] ∧
    buildParamRows (headerOverwrite c9m (collectTags c9s 1)) = .ok [("P", 2)] ∧
    processSheet c9m c9s [("P", "T1"), ("Ghost", "FT-999")] =
      processSheet c9m c9s [("P", "T1")] ∧
    (processSheet c9m c9s [("P", "T1"), ("Ghost", "FT-999")]).map
      (fun m => getVal m 2 4) = .ok (some (.vInt 5)) := by
  refine ⟨by rfl, by rfl, ?_, by rfl⟩
  have h := c9_lookup_miss_skipped c9m c9s [("P", "T1"), ("Ghost", "FT-999")]
    [("T1", 3)] [("P", 2)] (by rfl) (by rfl)
  rw [h]
  congr 1

/-! ### C8 -/

/-- Key injectivity of a successfully built parameter → row lookup. -/
theorem prows_inj_of_build (s : Sheet) (prows : Dict Nat)
    (hp : buildParamRows s = .ok prows) :
    ∀ p1 p2 r, dictGet prows p1 = some r → dictGet prows p2 = some r → p1 = p2 := by
  have hbe := buildParamRows_entries s
  rw [hp] at hbe
  cases hl : paramEntries s with
  | error e => rw [hl] at hbe; cases hbe
  | ok l =>
    rw [hl] at hbe
    simp only [Except.map] at hbe
    rw [Except.ok.injEq] at hbe
    have hp' : buildParamRows s = .ok (foldIns l) := by
      rw [hp, hbe]
    rw [hbe]
    exact paramRows_injective s l (foldIns l) hl hp'

/-- C8: for a surviving (column, parameter, tag) triple — master tag at
position `i` present in the streamtable tag list, parameter and tag lookups
both hitting — the final master cell at (parameter row, `4 + i`) equals the
source cell rounded to two decimals when the source is a float, the source
value verbatim for any other type, and the cell untouched by the loop when the
source cell is empty (away from header row 3 this means equal to the original
master cell).  `pyRound2` rounds exactly the float values. -/
theorem c8_value_written (master stream : Sheet) (pairs : List (String × String))
    (m' : Sheet) (trows prows : Dict Nat) (p t : String) (mRow sRow i : Nat)
    (tg : CellValue)
    (hok : processSheet master stream pairs = .ok m')
    (htr : buildStreamTagToRow stream = .ok trows)
    (hpr : buildParamRows (headerOverwrite master (collectTags stream 1)) = .ok prows)
    (hnk : (pairs.map Prod.fst).Nodup)
    (hpair : (p, t) ∈ pairs)
    (hp : dictGet prows p = some mRow)
    (ht : dictGet trows t = some sRow)
    (hi : i < (collectTags (headerOverwrite master (collectTags stream 1)) 3).length)
    (htg : (collectTags (headerOverwrite master (collectTags stream 1)) 3).get ⟨i, hi⟩
      = tg)
    (hsurv : pyMem tg (collectTags stream 1) = true) :
    (getVal m' mRow (i + 4) =
      match getVal stream sRow (pyIdx (collectTags stream 1) tg + 4) with
      | some v => some (pyRound2 v)
      | none => getVal (headerOverwrite master (collectTags stream 1)) mRow (i + 4)) ∧
    (mRow ≠ 3 →
      getVal (headerOverwrite master (collectTags stream 1)) mRow (i + 4) =
        getVal master mRow (i + 4)) ∧
    (∀ q, pyRound2 (.vFloat q) = .vFloat (roundQ2 q)) ∧
    (∀ v, isFloatV v = false → pyRound2 v = v) := by
  subst htg
  obtain ⟨trows0, prows0, htr0, hpr0, hm⟩ := processSheet_ok _ _ _ _ hok
  rw [htr] at htr0
  rw [Except.ok.injEq] at htr0
  rw [hpr] at hpr0
  rw [Except.ok.injEq] at hpr0
  rw [← htr0, ← hpr0] at hm
  refine ⟨?_, ?_, fun q => rfl, fun v hv => by cases v <;> first | rfl | cases hv⟩
  · rw [hm]
    have hmem : (i, (collectTags (headerOverwrite master (collectTags stream 1)) 3).get
        ⟨i, hi⟩) ∈
        (collectTags (headerOverwrite master (collectTags stream 1)) 3).enum :=
      mem_enum_of_lt _ i hi
    have hidx : (((collectTags (headerOverwrite master (collectTags stream 1)) 3).enum
        ).map Prod.fst).Nodup := by
      rw [List.enum_map_fst]
      exact List.nodup_range _
    exact colsFold_value stream prows trows _ pairs _
      (headerOverwrite master (collectTags stream 1)) i _ p t mRow sRow
      hmem hidx hsurv hpair hnk (prows_inj_of_build _ prows hpr) hp ht
  · intro hr3
    apply getVal_of_getCell
    exact headerOverwrite_frame master _ mRow (i + 4) (Or.inl hr3)

def c8m : Sheet := mkSheet [((1, 1), .vStr "SysCAD Inputs"), ((2, 2), .vStr "P"),
  ((3, 4), .vStr "S")] 3 4

def c8s : Sheet := mkSheet [((1, 4), .vStr "S"), ((3, 3), .vStr "T1"),
  ((3, 4), .vFloat (mkRat 12345 1000))] 3 4

/-- Witness for C8 at a concrete workbook: the float source 12.345 is written
rounded (12.34 under round-half-to-even at the third decimal), at master row 2,
column 4. -/
theorem c8_value_written_witness :
    (processSheet c8m c8s [("P", "T1")]).map (fun m => getVal m 2 4) =
      .ok (some (.vFloat (mkRat 1234 100))) ∧
    getVal c8m 2 4 = none := by
  have hok : processSheet c8m c8s [("P", "T1")] =
      .ok ((processSheet c8m c8s [("P", "T1")]).toOption.getD emptySheet) := by rfl
  have h := c8_value_written c8m c8s [("P", "T1")]
    ((processSheet c8m c8s [("P", "T1")]).toOption.getD emptySheet) [("T1", 3)]
    [("P", 2)] "P" "T1" 2 3 0 (.vStr "S") hok (by rfl)
    (by rfl) (by decide) (by decide) (by decide) (by decide) (by decide) (by decide)
    (by decide)
  constructor
  · rw [hok]
    simp only [Except.map]
    rw [Except.ok.injEq]
    rw [h.1]
    decide
  · decide

/-! ### C7 -/

def c7m : Sheet := mkSheet [((1, 1), .vStr "SysCAD Inputs"), ((2, 2), .vStr "P"),
  ((2, 3), .vStr "kg"), ((3, 4), .vStr "X")] 3 4

def c7s : Sheet := mkSheet [((3, 2), .vStr "u"), ((3, 3), .vStr "T1"),
  ((3, 4), .vInt 9)] 3 3

/-- C7 counterexample: the streamtable sheet has no unit-tag headers at all
(its max column is 3), so the column loop finds no surviving column and the
unit update — being nested inside the per-column loop, not independent of it —
never runs: although the mapped pair's lookups both hit and the truthy
streamtable unit "u" differs from the master's "kg", the master unit cell
keeps "kg".  The claim that unit reconciliation runs once per mapping pair
independently of the per-column loop, even with no shared unit-tag columns,
is false. -/
theorem c7_counterexample :
    processSheet c7m c7s [("P", "T1")] = .ok c7m ∧
    buildParamRows (headerOverwrite c7m (collectTags c7s 1)) = .ok [("P", 2)] ∧
    buildStreamTagToRow c7s = .ok [("T1", 3)] ∧
    truthy (getVal c7s 3 2) = true ∧
    pyEqO (getVal c7m 2 3) (getVal c7s 3 2) = false ∧
    getVal c7m 2 3 = some (.vStr "kg") := by
  refine ⟨by rfl, by rfl, by rfl, by decide, by decide, by decide⟩

/-- C7 amended: unit reconciliation runs once per surviving (column,
parameter, tag) triple, nested inside the per-column loop.  Whenever at least
one column survives — which, after the header overwrite, holds exactly when
the streamtable unit-tag list is non-empty — its net effect matches the
claim: for every mapped pair whose two lookups hit and whose streamtable tag
row carries a truthy column-2 unit, the master parameter row's column-3 unit
cell ends Python-equal to the streamtable unit.  When no column survives, no
unit cell is touched. -/
theorem c7_unit_overwrite (master stream : Sheet) (pairs : List (String × String))
    (m' : Sheet) (trows prows : Dict Nat) (p t : String) (mRow sRow : Nat)
    (hok : processSheet master stream pairs = .ok m')
    (htr : buildStreamTagToRow stream = .ok trows)
    (hpr : buildParamRows (headerOverwrite master (collectTags stream 1)) = .ok prows)
    (hnk : (pairs.map Prod.fst).Nodup)
    (hpair : (p, t) ∈ pairs)
    (hp : dictGet prows p = some mRow)
    (ht : dictGet trows t = some sRow)
    (hne : collectTags stream 1 ≠ [])
    (hsu : truthy (getVal stream sRow 2) = true) :
    pyEqO (getVal m' mRow 3) (getVal stream sRow 2) = true := by
  obtain ⟨trows0, prows0, htr0, hpr0, hm⟩ := processSheet_ok _ _ _ _ hok
  rw [htr] at htr0
  rw [Except.ok.injEq] at htr0
  rw [hpr] at hpr0
  rw [Except.ok.injEq] at hpr0
  rw [← htr0, ← hpr0] at hm
  rw [hm]
  exact colsFold_unit stream prows trows _ pairs _ _ p t mRow sRow
    (exists_survivor master _ (collectTags_truthy stream 1) hne)
    hpair hnk (prows_inj_of_build _ prows hpr) hp ht hsu

def c7wm : Sheet := mkSheet [((1, 1), .vStr "SysCAD Inputs"), ((2, 2), .vStr "P"),
  ((2, 3), .vStr "kg"), ((3, 4), .vStr "X")] 3 4

def c7ws : Sheet := mkSheet [((1, 4), .vStr "S"), ((3, 2), .vStr "u"),
  ((3, 3), .vStr "T1"), ((3, 4), .vInt 9)] 3 4

/-- Witness for the amended C7: with one streamtable tag the unit cell is
overwritten to "u". -/
theorem c7_unit_overwrite_witness :
    collectTags c7ws 1 ≠ [] ∧
    (processSheet c7wm c7ws [("P", "T1")]).map
      (fun m => pyEqO (getVal m 2 3) (getVal c7ws 3 2)) = .ok true := by
  have hok : processSheet c7wm c7ws [("P", "T1")] =
      .ok ((processSheet c7wm c7ws [("P", "T1")]).toOption.getD emptySheet) := by rfl
  have h := c7_unit_overwrite c7wm c7ws [("P", "T1")]
    ((processSheet c7wm c7ws [("P", "T1")]).toOption.getD emptySheet)
    [("T1", 3)] [("P", 2)] "P" "T1" 2 3 hok (by rfl) (by rfl) (by decide)
    (by decide) (by decide) (by decide) (by decide) (by decide)
  refine ⟨by decide, ?_⟩
  rw [hok]
  simp only [Except.map]
  rw [Except.ok.injEq]
  exact h

/-! ### C1 -/

/-- Column-fold frame allowing skipped columns: a column whose tag fails the
membership test contributes nothing, and for the remaining columns the usual
non-interference conditions apply. -/
theorem colsFold_frame_skip (stream : Sheet) (prows trows : Dict Nat)
    (stags : List CellValue) (pairs : List (String × String))
    (cols : List (Nat × CellValue)) :
    ∀ (m : Sheet) (ρ c : Nat),
      (∀ e ∈ cols, pyMem e.2 stags = false ∨
        (∀ pr ∈ pairs, ∀ mRow sRow, dictGet prows pr.1 = some mRow →
          dictGet trows pr.2 = some sRow →
          ¬(mRow = ρ ∧ e.1 + 4 = c) ∧ ¬(mRow = ρ ∧ 3 = c))) →
      getCell (List.foldl (colStep stream prows trows stags pairs) m cols) ρ c =
        getCell m ρ c := by
  induction cols with
  | nil => intro m ρ c _; rfl
  | cons e rest ih =>
    intro m ρ c h
    rw [List.foldl_cons]
    rw [ih _ ρ c (fun e' he' => h e' (List.mem_cons_of_mem _ he'))]
    rcases h e (List.mem_cons_self _ _) with hskip | hcond
    · unfold colStep
      rw [if_neg (by rw [hskip]; intro hc; cases hc)]
    · exact colStep_frame _ _ _ _ _ _ _ _ _ hcond

/-- C1 amended: a master tag (of the post-overwrite header) that is absent
from the streamtable tag list is skipped: no cell of the column `4 + i`
associated with the tag's position `i` in the collected list is modified by
the pass — including its header cell, since a skipped tag's position always
lies at or beyond the overwritten prefix — and no error arises from the skip.
The tag's physical column, however, can exceed `4 + i` when empty header
cells precede it, and cells of the physical column can then still be written
(see the counterexample). -/
theorem c1_skipped_tag_column (master stream : Sheet) (pairs : List (String × String))
    (m' : Sheet) (i : Nat)
    (hok : processSheet master stream pairs = .ok m')
    (hi : i < (collectTags (headerOverwrite master (collectTags stream 1)) 3).length)
    (hskip : pyMem ((collectTags (headerOverwrite master (collectTags stream 1)) 3).get
      ⟨i, hi⟩) (collectTags stream 1) = false) :
    ∀ ρ, getCell m' ρ (4 + i) = getCell master ρ (4 + i) := by
  intro ρ
  obtain ⟨trows, prows, htr, hpr, hm⟩ := processSheet_ok _ _ _ _ hok
  rw [hm]
  have hge : (collectTags stream 1).length ≤ i :=
    skipped_position master _ (collectTags_truthy stream 1) i hi hskip
  have hstep : getCell (List.foldl
      (colStep stream prows trows (collectTags stream 1) pairs)
      (headerOverwrite master (collectTags stream 1))
      ((collectTags (headerOverwrite master (collectTags stream 1)) 3).enum)) ρ (4 + i) =
      getCell (headerOverwrite master (collectTags stream 1)) ρ (4 + i) := by
    apply colsFold_frame_skip
    intro e he
    obtain ⟨j, tg⟩ := e
    by_cases hj : j = i
    · subst hj
      obtain ⟨hjl, htg⟩ := List.mem_enum he
      left
      rw [htg]
      exact hskip
    · right
      intro pr hpr2 mRow sRow hmr hsr
      constructor
      · rintro ⟨_, h2⟩
        simp only at h2
        omega
      · rintro ⟨_, h2⟩
        omega
  rw [hstep]
  exact headerOverwrite_frame master _ ρ (4 + i) (Or.inr (Or.inr (by omega)))

def c1m : Sheet := mkSheet [((1, 1), .vStr "SysCAD Inputs"), ((2, 2), .vStr "P"),
  ((3, 4), .vStr "X"), ((3, 6), .vStr "T"), ((3, 7), .vStr "S")] 3 7

def c1s : Sheet := mkSheet [((1, 4), .vStr "S"), ((3, 2), .vStr "u"),
  ((3, 3), .vStr "T1"), ((3, 4), .vInt 7)] 3 4

def c1res : Sheet := (processSheet c1m c1s [("P", "T1")]).toOption.getD emptySheet

/-- C1 counterexample: the master tag "T" physically occupies column 6 (in the
original master and still after the header overwrite) and is absent from the
streamtable tag list, yet the pass writes the value 7 into cell (2, 6) of
that column: because of the empty header cell at (3, 5), "T" sits at position
1 of the collected (filtered) list while the later duplicate "S" at column 7
sits at position 2 and survives, sending its value write to column 2 + 4 = 6.
"No cell in that column of the master sheet is modified" is false for the
skipped tag's physical column. -/
theorem c1_counterexample :
    processSheet c1m c1s [("P", "T1")] = .ok c1res ∧
    getVal c1m 3 6 = some (.vStr "T") ∧
    getVal (headerOverwrite c1m (collectTags c1s 1)) 3 6 = some (.vStr "T") ∧
    pyMem (.vStr "T") (collectTags c1s 1) = false ∧
    getVal c1m 2 6 = none ∧
    getVal c1res 2 6 = some (.vInt 7) := by
  refine ⟨by rfl, by decide, by decide, by decide, by decide, by decide⟩

/-- Witness for the amended C1: the skipped tag "T" has position 1 in the
collected master tag list, and every cell of the associated column 4 + 1 = 5
is untouched by the pass. -/
theorem c1_skipped_tag_column_witness :
    pyMem ((collectTags (headerOverwrite c1m (collectTags c1s 1)) 3).get
      ⟨1, by decide⟩) (collectTags c1s 1) = false ∧
    getCell c1res 2 5 = getCell c1m 2 5 ∧
    getCell c1res 3 5 = getCell c1m 3 5 := by
  refine ⟨by decide, ?_, ?_⟩
  · exact c1_skipped_tag_column c1m c1s [("P", "T1")] c1res 1 (by rfl) (by decide)
      (by decide) 2
  · exact c1_skipped_tag_column c1m c1s [("P", "T1")] c1res 1 (by rfl) (by decide)
      (by decide) 3

/-! ### C10 -/

/-- Every recorded parameter row lies within the scanned sheet. -/
theorem prows_row_le (s : Sheet) (prows : Dict Nat)
    (hp : buildParamRows s = .ok prows) :
    ∀ p r, dictGet prows p = some r → r ≤ s.maxRow := by
  have hbe := buildParamRows_entries s
  rw [hp] at hbe
  cases hl : paramEntries s with
  | error e => rw [hl] at hbe; cases hbe
  | ok l =>
    rw [hl] at hbe
    simp only [Except.map] at hbe
    rw [Except.ok.injEq] at hbe
    intro p r hget
    have hp' : buildParamRows s = .ok (foldIns l) := by rw [hp, hbe]
    have hmem := dictGet_paramRows_mem s l (foldIns l) hl hp' p r
      (by rw [← hbe]; exact hget)
    exact (paramEntries_row_le s l hl (p, r) hmem).2

/-- C10: feeding the output master of one reconciliation pass back in as the
input of a second pass leaves every master unit cell (column 3 of a mapped
parameter row) with exactly its value after the single pass — the unit
overwrite does not oscillate. -/
theorem c10_unit_idempotent (master stream : Sheet) (pairs : List (String × String))
    (m1 m2 : Sheet) (prows : Dict Nat) (p t : String) (mRow : Nat)
    (h1 : processSheet master stream pairs = .ok m1)
    (h2 : processSheet m1 stream pairs = .ok m2)
    (hnk : (pairs.map Prod.fst).Nodup)
    (hpr : buildParamRows (headerOverwrite master (collectTags stream 1)) = .ok prows)
    (hpair : (p, t) ∈ pairs)
    (hp : dictGet prows p = some mRow) :
    getVal m2 mRow 3 = getVal m1 mRow 3 := by
  obtain ⟨trows0, prows0, htr0, hpr0, hm1⟩ := processSheet_ok _ _ _ _ h1
  rw [hpr] at hpr0
  rw [Except.ok.injEq] at hpr0
  rw [← hpr0] at hm1
  by_cases hne : collectTags stream 1 = []
  · rw [hne] at hm1
    rw [colsFold_empty_stags] at hm1
    have hid : m1 = master := by
      rw [hm1]
      rfl
    rw [hid] at h2
    rw [h1] at h2
    rw [Except.ok.injEq] at h2
    rw [← h2, hid]
  · have hinj := prows_inj_of_build _ prows hpr
    have hbound : ∀ pr2 ∈ pairs, ∀ mr, dictGet prows pr2.1 = some mr →
        mr ≤ (headerOverwrite master (collectTags stream 1)).maxRow :=
      fun pr2 _ mr hmr => prows_row_le _ prows hpr pr2.1 mr hmr
    have hm1max : m1.maxRow = (headerOverwrite master (collectTags stream 1)).maxRow := by
      rw [hm1]
      exact colsFold_maxRow stream prows trows0 _ pairs _ _ hbound
    have hiE : (collectTags stream 1).isEmpty = false := by
      cases hstags : collectTags stream 1 with
      | nil => exact absurd hstags hne
      | cons a l => rfl
    have hc12 : ∀ ρ c, c = 1 ∨ c = 2 → getVal m1 ρ c = getVal master ρ c := by
      intro ρ c hc
      rw [hm1]
      have hf : getCell (List.foldl
          (colStep stream prows trows0 (collectTags stream 1) pairs)
          (headerOverwrite master (collectTags stream 1))
          ((collectTags (headerOverwrite master (collectTags stream 1)) 3).enum)) ρ c =
          getCell (headerOverwrite master (collectTags stream 1)) ρ c := by
        apply colsFold_frame
        intro e he pr2 hpr2 mR sR hmr hsr
        constructor
        · rintro ⟨_, h2c⟩
          omega
        · rintro ⟨_, h2c⟩
          omega
      have hh : getCell (headerOverwrite master (collectTags stream 1)) ρ c =
          getCell master ρ c :=
        headerOverwrite_frame master _ ρ c (Or.inr (Or.inl (by omega)))
      exact getVal_of_getCell (hf.trans hh)
    have hmaxeq : (headerOverwrite m1 (collectTags stream 1)).maxRow =
        (headerOverwrite master (collectTags stream 1)).maxRow := by
      show (headerWrite m1 0 (collectTags stream 1)).maxRow =
        (headerWrite master 0 (collectTags stream 1)).maxRow
      rw [headerWrite_maxRow, headerWrite_maxRow, hiE]
      simp only [if_false, Bool.false_eq_true]
      rw [hm1max]
      show ((headerWrite master 0 (collectTags stream 1)).maxRow ⊔ 3) = _
      rw [headerWrite_maxRow, hiE]
      simp only [if_false, Bool.false_eq_true]
      rw [Nat.max_assoc, Nat.max_self]
    have hpr2 : buildParamRows (headerOverwrite m1 (collectTags stream 1)) =
        .ok prows := by
      rw [buildParamRows_congr (headerOverwrite m1 (collectTags stream 1))
        (headerOverwrite master (collectTags stream 1)) ?_ ?_ hmaxeq]
      · exact hpr
      · intro r
        have ha := headerOverwrite_frame m1 (collectTags stream 1) r 1
          (Or.inr (Or.inl (by omega)))
        have hb := headerOverwrite_frame master (collectTags stream 1) r 1
          (Or.inr (Or.inl (by omega)))
        rw [getVal_of_getCell ha, getVal_of_getCell hb]
        exact hc12 r 1 (Or.inl rfl)
      · intro r
        have ha := headerOverwrite_frame m1 (collectTags stream 1) r 2
          (Or.inr (Or.inl (by omega)))
        have hb := headerOverwrite_frame master (collectTags stream 1) r 2
          (Or.inr (Or.inl (by omega)))
        rw [getVal_of_getCell ha, getVal_of_getCell hb]
        exact hc12 r 2 (Or.inr rfl)
    obtain ⟨trows1, prows1, htr1, hpr1, hm2⟩ := processSheet_ok _ _ _ _ h2
    rw [htr0] at htr1
    rw [Except.ok.injEq] at htr1
    rw [hpr2] at hpr1
    rw [Except.ok.injEq] at hpr1
    rw [← htr1, ← hpr1] at hm2
    have hho : getVal (headerOverwrite m1 (collectTags stream 1)) mRow 3 =
        getVal m1 mRow 3 :=
      getVal_of_getCell (headerOverwrite_frame m1 _ mRow 3 (Or.inr (Or.inl (by omega))))
    have hu : ∀ u, (p, u) ∈ pairs → u = t :=
      fun u hu' => pairs_key_unique pairs hnk p u t hu' hpair
    cases htw : dictGet trows0 t with
    | none =>
      rw [hm2]
      have hf : getCell (List.foldl
          (colStep stream prows trows0 (collectTags stream 1) pairs)
          (headerOverwrite m1 (collectTags stream 1))
          ((collectTags (headerOverwrite m1 (collectTags stream 1)) 3).enum)) mRow 3 =
          getCell (headerOverwrite m1 (collectTags stream 1)) mRow 3 := by
        apply colsFold_frame
        intro e he pr2 hpr3 mR sR hmr hsr
        constructor
        · rintro ⟨_, h2c⟩
          omega
        · rintro ⟨hR, _⟩
          rw [hR] at hmr
          have hq : pr2.1 = p := hinj pr2.1 p mRow hmr hp
          have hpmem : (p, pr2.2) ∈ pairs := by
            rw [show (p, pr2.2) = pr2 from by rw [← hq]]
            exact hpr3
          have hqt : pr2.2 = t := hu pr2.2 hpmem
          rw [hqt, htw] at hsr
          cases hsr
      rw [getVal_of_getCell hf]
      exact hho
    | some sRow =>
      by_cases hsu : truthy (getVal stream sRow 2) = true
      · have hP1 : pyEqO (getVal m1 mRow 3) (getVal stream sRow 2) = true := by
          rw [hm1]
          exact colsFold_unit stream prows trows0 _ pairs _ _ p t mRow sRow
            (exists_survivor master _ (collectTags_truthy stream 1) hne)
            hpair hnk hinj hp htw hsu
        rw [hm2]
        rw [colsFold_pres stream prows trows0 _ pairs _ _ p t mRow sRow
          hu hinj hp htw (Or.inr (by rw [hho]; exact hP1))]
        exact hho
      · rw [hm2]
        rw [colsFold_pres stream prows trows0 _ pairs _ _ p t mRow sRow
          hu hinj hp htw (Or.inl (by rwa [Bool.not_eq_true] at hsu))]
        exact hho

def c10m : Sheet := mkSheet [((1, 1), .vStr "SysCAD Inputs"), ((2, 2), .vStr "P"),
  ((2, 3), .vStr "kg"), ((3, 4), .vStr "X")] 3 4

def c10s : Sheet := mkSheet [((1, 4), .vStr "S"), ((3, 2), .vStr "u"),
  ((3, 3), .vStr "T1"), ((3, 4), .vInt 9)] 3 4

def c10m1 : Sheet := (processSheet c10m c10s [("P", "T1")]).toOption.getD emptySheet

def c10m2 : Sheet := (processSheet c10m1 c10s [("P", "T1")]).toOption.getD emptySheet

/-- Witness for C10 at a concrete workbook: the first pass overwrites the unit
"kg" with "u", and the second pass leaves the unit cell exactly as the first
pass left it. -/
theorem c10_unit_idempotent_witness :
    processSheet c10m c10s [("P", "T1")] = .ok c10m1 ∧
    processSheet c10m1 c10s [("P", "T1")] = .ok c10m2 ∧
    getVal c10m 2 3 = some (.vStr "kg") ∧
    getVal c10m1 2 3 = some (.vStr "u") ∧
    getVal c10m2 2 3 = getVal c10m1 2 3 := by
  refine ⟨by rfl, by rfl, by decide, by decide, ?_⟩
  exact c10_unit_idempotent c10m c10s [("P", "T1")] c10m1 c10m2 [("P", 2)] "P" "T1" 2
    (by rfl) (by rfl) (by decide) (by rfl) (by decide) (by decide)

end SyscadPopulate
